import Mathlib

set_option linter.unusedVariables false

/-!
# Verification of the `cluster` repository's distance-matrix core

Shallow embedding of the Go package `cluster` (distance-matrix validation,
UPGMA/single-linkage agglomerative clustering, neighbor joining, additive
phylogeny).  Go's `float64` is modelled by `ℚ` where the inputs in a claim's
scope are real numbers (valid distance matrices contain no NaN: a NaN fails
the `Symmetric`/`ZeroDiagonal` checks), and by the type `F` below — a rational
or NaN — for the validation predicates themselves, whose behaviour on NaN is
part of the spec.  `math.Inf(1)` used as an initial minimum is modelled by
`Option ℚ` with `none` as positive infinity.  Go slice mutation is modelled by
explicit state passing; a Go `panic` is modelled by an `Option`-valued result
being `none`.
-/

namespace Cluster

/-- Model of a Go `float64` restricted to the values that occur in this
package: a finite value (as an exact rational) or NaN. -/
inductive F where
  | nan : F
  | val : ℚ → F
deriving DecidableEq, Repr

/-- Addition on `F`: NaN is absorbing, as for IEEE floats (rounding is not
modelled; rational arithmetic is exact). -/
def F.add : F → F → F
  | F.val a, F.val b => F.val (a + b)
  | _, _ => F.nan

/-- Go `==` on floats: NaN compares unequal to everything, itself included. -/
def F.beq : F → F → Bool
  | F.val a, F.val b => a == b
  | _, _ => false

/-- Go `<` on floats: any comparison involving NaN is false. -/
def F.flt : F → F → Bool
  | F.val a, F.val b => decide (a < b)
  | _, _ => false

/-- A Go `DistanceMatrix` (`[][]float64`), NaN-aware model. -/
abbrev FMat := List (List F)

/-- Read entry `d[i][j]`.  In-range reads match Go; the NaN default for
out-of-range reads is never hit in the claims' scopes (Go would panic). -/
def fget (d : FMat) (i j : ℕ) : F := (d.getD i []).getD j F.nan

/-- Go `func (d DistanceMatrix) Square() bool`: every row has length `len d`. -/
def Square (d : FMat) : Bool := d.all fun di => di.length == d.length

/-- Go `func (d DistanceMatrix) NonNegative() bool`: no element is `< 0`
(NaN-weak: NaN does not count as negative). -/
def NonNegative (d : FMat) : Bool :=
  d.all fun di => di.all fun dij => !F.flt dij (F.val 0)

/-- Go `func (d DistanceMatrix) Symmetric() bool`: for each row `i`, each
`j < i` within the row (`di[:i]`) must satisfy `dij == d[j][i]`; the reversed
test `!(dij == d[j][i])` makes NaN a mismatch.  The diagonal is not examined. -/
def Symmetric (d : FMat) : Bool :=
  d.enum.all fun p =>
    (p.2.take p.1).enum.all fun q => F.beq q.2 (fget d q.1 p.1)

/-- Go `func (d DistanceMatrix) ZeroDiagonal() bool`: `!(di[i] == 0)` fails. -/
def ZeroDiagonal (d : FMat) : Bool :=
  d.enum.all fun p => F.beq (p.2.getD p.1 F.nan) (F.val 0)

/-- Iteration order of `TriangleInequality`: `i` over rows, `k` over `d[:i]`,
`j` over row `i`. -/
def triTuples (d : FMat) : List (ℕ × ℕ × ℕ) :=
  (List.range d.length).flatMap fun i =>
    (List.range i).flatMap fun k =>
      (List.range (d.getD i []).length).map fun j => (i, j, k)

/-- The test fired by `TriangleInequality` at `(i, j, k)`:
`d[i][j] + d[k][j] < d[i][k]` (NaN-weak: NaN never triggers a violation). -/
def triViolation (d : FMat) (t : ℕ × ℕ × ℕ) : Bool :=
  F.flt (F.add (fget d t.1 t.2.1) (fget d t.2.2 t.2.1)) (fget d t.1 t.2.2)

/-- Go `func (d DistanceMatrix) TriangleInequality() (ok bool, i, j, k int)`:
returns the first violating triple in iteration order, else `(true,0,0,0)`. -/
def TriangleInequality (d : FMat) : Bool × ℕ × ℕ × ℕ :=
  match (triTuples d).find? (triViolation d) with
  | some (i, j, k) => (false, i, j, k)
  | none => (true, 0, 0, 0)

/-- The error returned by Go `Validate`: four index-free errors built with
`errors.New`, and the triangle error built with `fmt.Errorf` carrying the
indices `i, j, k` it interpolates into the message. -/
inductive VErr where
  | notSquare : VErr
  | negativeElement : VErr
  | notSymmetric : VErr
  | nonZeroDiagonal : VErr
  | triangle (i j k : ℕ) : VErr
deriving DecidableEq, Repr

/-- Go `func (d DistanceMatrix) Validate() error`, `none` modelling `nil`. -/
def Validate (d : FMat) : Option VErr :=
  if !Square d then some VErr.notSquare
  else if !NonNegative d then some VErr.negativeElement
  else if !Symmetric d then some VErr.notSymmetric
  else if !ZeroDiagonal d then some VErr.nonZeroDiagonal
  else
    match TriangleInequality d with
    | (false, i, j, k) => some (VErr.triangle i j k)
    | (true, _, _, _) => none

/-! ## Rational-valued matrices and the tree builders

The builders are exercised by the claims only on valid distance matrices,
which contain no NaN, so they are embedded over exact rationals. -/

/-- A distance matrix of real (non-NaN) entries, `float64` modelled by `ℚ`. -/
abbrev Mat := List (List ℚ)

/-- Lift a rational matrix into the NaN-aware model. -/
def liftQ (d : Mat) : FMat := d.map fun r => r.map F.val

/-- Read entry `d[i][j]` of a rational matrix (in-range reads match Go). -/
def getQ (d : Mat) (i j : ℕ) : ℚ := (d.getD i []).getD j 0

/-- Write entry `d[i][j] = v` (in-range writes match Go slice assignment). -/
def setQ (d : Mat) (i j : ℕ) (v : ℚ) : Mat := d.set i ((d.getD i []).set j v)

/-- `DAVG`: UPGMA (average) cluster distance metric. -/
def DAVG : ℕ := 0

/-- `DMIN`: single linkage (minimum) cluster distance metric. -/
def DMIN : ℕ := 1

/-- One `d < min` update of the Go `closest` scan, where `min` starts at
`math.Inf(1)` (modelled as `none`). -/
def ltInf (d : ℚ) : Option ℚ → Bool
  | none => true
  | some m => decide (d < m)

/-- Go `func (dm DistanceMatrix) closest(clusters []int) (iMin, jMin, cj int)`:
scan `i` then `(c, j)` over the `clusters` list, considering pairs with
`i < j`, keeping the first strict minimum of `dm[i][j]`.  Accumulator is
`(min, iMin, jMin, cj)` with initial `(+Inf, -1, -1, 0)`. -/
def closest (dm : Mat) (clusters : List ℕ) : Int × Int × ℕ :=
  let acc := clusters.foldl
    (fun acc i =>
      clusters.enum.foldl
        (fun (acc : Option ℚ × Int × Int × ℕ) cj =>
          if i < cj.2 then
            if ltInf (getQ dm i cj.2) acc.1 then
              (some (getQ dm i cj.2), (i : Int), (cj.2 : Int), cj.1)
            else acc
          else acc)
        acc)
    ((none : Option ℚ), (-1 : Int), (-1 : Int), (0 : ℕ))
  acc.2

/-- State of the `UltrametricD` merge loop: the (mutated) matrix, the parent
list `pl` of `(From, Len)` pairs, the labels `ul` of `(Weight, Age)` pairs
(`Weight = none` models NaN), the live-cluster index list, and the
matrix-index-to-node-number map `cx`. -/
structure UMState where
  dm : Mat
  pl : List (Int × ℕ)
  ul : List (Option ℚ × ℚ)
  clusters : List ℕ
  cx : List ℕ
deriving Repr

/-- Result of one iteration of the `UltrametricD` loop. -/
inductive UMStep where
  | halt : UMStep
  | finish (s : UMState) : UMStep
  | next (s : UMState) : UMStep

/-- The `DAVG` case of the distance-update switch: for each live `j ≠ d1`,
`d := (di1[j]*m1 + di2[j]*m2) / m3` is written to `dm[d1][j]` and `dm[j][d1]`.
The matrix is threaded through the fold exactly as the Go loop mutates the
shared backing arrays. -/
def davgFold (clusters : List ℕ) (d1 d2 m1 m2 m3 : ℕ) (dm : Mat) : Mat :=
  clusters.foldl
    (fun dm j =>
      if j ≠ d1 then
        let dn := (getQ dm d1 j * m1 + getQ dm d2 j * m2) * (1 / (m3 : ℚ))
        setQ (setQ dm d1 j dn) j d1 dn
      else dm)
    dm

/-- The `DMIN` case of the switch: for each live `j`, if `di2[j] < di1[j]`
then `dm[d1][j] := di2[j]`, otherwise `dm[j][d1] := di1[j]`. -/
def dminFold (clusters : List ℕ) (d1 d2 : ℕ) (dm : Mat) : Mat :=
  clusters.foldl
    (fun dm j =>
      let dj1 := getQ dm d1 j
      if getQ dm d2 j < dj1 then setQ dm d1 j (getQ dm d2 j)
      else setQ dm j d1 dj1)
    dm

/-- One iteration of the `UltrametricD` loop: select the closest pair, create
the merge node, stop if two clusters remain, otherwise update distances per
the linkage mode (`halt` models the `panic` on an invalid mode and the
index-out-of-range panic when `closest` finds no pair) and drop `d2` from the
live list by swapping in the last element. -/
def umIter (cdf : ℕ) (s : UMState) : UMStep :=
  let r := closest s.dm s.clusters
  if r.1 < 0 ∨ r.2.1 < 0 then UMStep.halt
  else
    let d1 := r.1.toNat
    let d2 := r.2.1.toNat
    let cl2 := r.2.2
    let c1 := s.cx.getD d1 0
    let c2 := s.cx.getD d2 0
    let m1 := (s.pl.getD c1 (-1, 0)).2
    let m2 := (s.pl.getD c2 (-1, 0)).2
    let m3 := m1 + m2
    let parent := s.pl.length
    let age := getQ s.dm d2 d1 / 2
    let pl := s.pl ++ [((-1 : Int), m3)]
    let ul := s.ul ++ [((none : Option ℚ), age)]
    let pl := (pl.set c1 ((parent : Int), m1)).set c2 ((parent : Int), m2)
    let ul := (ul.set c1 (some (age - (s.ul.getD c1 (none, 0)).2),
                          (s.ul.getD c1 (none, 0)).2)).set c2
               (some (age - (s.ul.getD c2 (none, 0)).2),
                (s.ul.getD c2 (none, 0)).2)
    if s.clusters.length = 2 then
      UMStep.finish { s with pl := pl, ul := ul }
    else
      let cx := s.cx.set d1 parent
      match (if cdf = DAVG then some (davgFold s.clusters d1 d2 m1 m2 m3 s.dm)
             else if cdf = DMIN then some (dminFold s.clusters d1 d2 s.dm)
             else none : Option Mat) with
      | none => UMStep.halt
      | some dm =>
        let last := s.clusters.length - 1
        let clusters := (s.clusters.set cl2 (s.clusters.getD last 0)).take last
        UMStep.next { dm := dm, pl := pl, ul := ul, clusters := clusters,
                      cx := cx }

/-- The `UltrametricD` loop, fuel-indexed (the fuel `len dm` given by
`UltrametricD` always suffices: the live list shrinks by one per pass). -/
def umLoop (cdf : ℕ) : ℕ → UMState →
    Option (List (Int × ℕ) × List (Option ℚ × ℚ) × Mat)
  | 0, _ => none
  | fuel + 1, s =>
    match umIter cdf s with
    | UMStep.halt => none
    | UMStep.finish s' => some (s'.pl, s'.ul, s'.dm)
    | UMStep.next s' => umLoop cdf fuel s'

/-- Initial state of `UltrametricD` on matrix `dm`: isolated leaves with
`From = -1`, `Len = 1`, `Weight = NaN`, `Age = 0`. -/
def umInit (dm : Mat) : UMState :=
  { dm := dm
    pl := (List.range dm.length).map fun _ => ((-1 : Int), 1)
    ul := (List.range dm.length).map fun _ => ((none : Option ℚ), 0)
    clusters := List.range dm.length
    cx := List.range dm.length }

/-- Go `func (dm DistanceMatrix) UltrametricD(cdf int)`: destructive on the
receiver.  The third component of the result is the receiver's final
(mutated) contents; `none` models a panic. -/
def UltrametricD (dm : Mat) (cdf : ℕ) :
    Option (List (Int × ℕ) × List (Option ℚ × ℚ) × Mat) :=
  umLoop cdf dm.length (umInit dm)

/-- Go `func (d DistanceMatrix) Clone() DistanceMatrix`: fresh backing arrays
with the same contents. -/
def Clone (d : Mat) : Mat := d.map fun di => di

/-- Go `func (dm DistanceMatrix) Ultrametric(cdf int)`: runs `UltrametricD`
on a `Clone`, so the mutation hits the clone.  The second component is the
caller's matrix as it stands after the call — the argument itself, untouched,
because only the clone's backing arrays are written. -/
def Ultrametric (dm : Mat) (cdf : ℕ) :
    Option (List (Int × ℕ) × List (Option ℚ × ℚ)) × Mat :=
  ((UltrametricD (Clone dm) cdf).map fun r => (r.1, r.2.1), dm)

/-! ## The `Additive` four-point test (on real-valued matrices) -/

/-- Iteration order of `Additive`: `i` over rows, `j` over `d[:i]`, `k` over
`d[:j]`, `l` over row `i`. -/
def addTuples (d : Mat) : List (ℕ × ℕ × ℕ × ℕ) :=
  (List.range d.length).flatMap fun i =>
    (List.range i).flatMap fun j =>
      (List.range j).flatMap fun k =>
        (List.range (d.getD i []).length).map fun l => (i, j, k, l)

/-- `s1 = d[i][j] + d[k][l]` of the four-point test. -/
def addS1 (d : Mat) (i j k l : ℕ) : ℚ := getQ d i j + getQ d k l

/-- `s2 = d[i][k] + d[j][l]` of the four-point test. -/
def addS2 (d : Mat) (i j k l : ℕ) : ℚ := getQ d i k + getQ d j l

/-- `s3 = d[i][l] + d[j][k]` of the four-point test. -/
def addS3 (d : Mat) (i j k l : ℕ) : ℚ := getQ d i l + getQ d j k

/-- The pass condition of the per-quadruple test in `Additive`: the switch
swaps so `s1` is "the value `!=`", then the quadruple fails iff `s1 > s2`.
Unfolding the two swap cases gives: if `s1 == s2` pass iff `s3 ≤ s2`; else if
`s1 == s3` pass iff `s2 ≤ s1`; else pass iff `s1 ≤ s2`. -/
def passCheck (a b c : ℚ) : Bool :=
  if a = b then decide (c ≤ b)
  else if a = c then decide (b ≤ a)
  else decide (a ≤ b)

/-- The per-quadruple test of `Additive` at `(i, j, k, l)`. -/
def addCheck (d : Mat) (t : ℕ × ℕ × ℕ × ℕ) : Bool :=
  passCheck (addS1 d t.1 t.2.1 t.2.2.1 t.2.2.2)
    (addS2 d t.1 t.2.1 t.2.2.1 t.2.2.2)
    (addS3 d t.1 t.2.1 t.2.2.1 t.2.2.2)

/-- Go `func (d DistanceMatrix) Additive() (ok bool, i, j, k, l int)`: scans
quadruples in iteration order and returns the first failing one, else
`(true, 0, 0, 0, 0)` (the loop variables shadow the named returns). -/
def Additive (d : Mat) : Bool × ℕ × ℕ × ℕ × ℕ :=
  match (addTuples d).find? (fun t => !addCheck d t) with
  | some t => (false, t)
  | none => (true, 0, 0, 0, 0)

/-! ## Neighbor joining -/

/-- Go's `closest` closure inside `NeighborJoinD`: scan `i` from 1 and `j < i`
over matrix indices, minimizing the Q-criterion
`(len(dm)-2)*dm[i][j] - td[i] - td[j]`; returns `(jMin, iMin)`. -/
def njClosest (dm : Mat) (td : List ℚ) : Int × Int :=
  let acc := (List.range dm.length).foldl
    (fun acc i =>
      (List.range i).foldl
        (fun (acc : Option ℚ × Int × Int) j =>
          let q := ((dm.length - 2 : ℕ) : ℚ) * getQ dm i j -
            td.getD i 0 - td.getD j 0
          if ltInf q acc.1 then (some q, (j : Int), (i : Int)) else acc)
        acc)
    ((none : Option ℚ), (-1 : Int), (-1 : Int))
  acc.2

/-- Append a half-edge to node `u`'s adjacency list. -/
def adjAppend (t : List (List (ℕ × ℕ))) (u : ℕ) (h : ℕ × ℕ) :
    List (List (ℕ × ℕ)) :=
  t.set u ((t.getD u []) ++ [h])

/-- The row/column replacement of `NeighborJoinD`: for each `j` over row
`d1`, `mn := (di1[j] + di2[j] - d21) / 2` is written to `dm[d1][j]` and
`dm[j][d1]`, with the `j == d1 && mn != 0` panic modelled as `none`; the
matrix is threaded through the fold as the Go loop mutates the shared
backing arrays. -/
def njUpdate (dm : Mat) (d1 d2 : ℕ) (d21 : ℚ) : Option Mat :=
  (List.range (dm.getD d1 []).length).foldl
    (fun acc j =>
      acc.bind fun dm' =>
        let mn := (getQ dm' d1 j + getQ dm' d2 j - d21) / 2
        if j = d1 ∧ mn ≠ 0 then none
        else some (setQ (setQ dm' d1 j mn) j d1 mn))
    (some dm)

/-- The recursive `nj` closure of `NeighborJoinD`, fuel-indexed (the fuel
`len dm` supplied by `NeighborJoinD` always suffices: the matrix loses one
row per level).  `none` models a panic. -/
def njRec (fuel : ℕ) (dm : Mat) (nx : List ℕ) (m : ℕ) :
    Option (List (List (ℕ × ℕ)) × List ℚ) :=
  match fuel with
  | 0 => none
  | fuel + 1 =>
    if dm.length = 2 then
      let n0 := nx.getD 0 0
      let n1 := nx.getD 1 0
      let tree := (List.range m).map fun _ => ([] : List (ℕ × ℕ))
      some ((tree.set n0 [(n1, 0)]).set n1 [(n0, 0)], [getQ dm 0 1])
    else
      let td := dm.map fun dk => dk.sum
      let r := njClosest dm td
      if r.1 < 0 ∨ r.2 < 0 then none
      else
        let d1 := r.1.toNat
        let d2 := r.2.toNat
        let Δ := (td.getD d2 0 - td.getD d1 0) / ((dm.length - 2 : ℕ) : ℚ)
        let d21 := getQ dm d2 d1
        let ll2 := (d21 + Δ) / 2
        let ll1 := (d21 - Δ) / 2
        let n1 := nx.getD d1 0
        let n2 := nx.getD d2 0
        match njUpdate dm d1 d2 d21 with
        | none => none
        | some dmu =>
          let dmr := (dmu.eraseIdx d2).map fun di => di.eraseIdx d2
          let nxr := (nx.set d1 m).eraseIdx d2
          match njRec fuel dmr nxr (m + 1) with
          | none => none
          | some (tree, wt) =>
            let wx1 := wt.length
            let wx2 := wx1 + 1
            let wt := wt ++ [ll1, ll2]
            let tree := adjAppend (adjAppend tree m (n1, wx1)) m (n2, wx2)
            let tree := adjAppend (adjAppend tree n1 (m, wx1)) n2 (m, wx2)
            some (tree, wt)

/-- Go `func (dm DistanceMatrix) NeighborJoinD()`: destructive variant. -/
def NeighborJoinD (dm : Mat) : Option (List (List (ℕ × ℕ)) × List ℚ) :=
  njRec dm.length dm (List.range dm.length) dm.length

/-- Go `func (dm DistanceMatrix) NeighborJoin()`: copies first. -/
def NeighborJoin (dm : Mat) : Option (List (List (ℕ × ℕ)) × List ℚ) :=
  NeighborJoinD (Clone dm)

/-! ## Additive phylogeny -/

/-- Go `func (d DistanceMatrix) limbWeightSubMatrix(j int) (wt float64, i, k int)`:
over the submatrix `d[:j+1][:j+1]`, with `k = j-1`, minimize
`d[j][i] + d[j][k] - d[k][i]` over `i < k` (first strict minimum, starting
from the accumulator seeded at `i = k-1`). -/
def limbWeightSubMatrix (d : Mat) (j : ℕ) : ℚ × ℕ × ℕ :=
  let k := j - 1
  let djk := getQ d j k
  let iMin2 := k - 1
  let acc := (List.range iMin2).foldl
    (fun (acc : ℚ × ℕ) i =>
      let wt := getQ d j i + djk - getQ d k i
      if wt < acc.1 then (wt, i) else acc)
    (getQ d j iMin2 + djk - getQ d k iMin2, iMin2)
  (acc.1 / 2, acc.2, k)

/-- State threaded through the `f` search closure of `AdditiveTree`: the
adjacency list `t`, the shared weight list `wts`, the remaining distance `x`
toward the attachment point, and the visited set `vis`. -/
structure APState where
  t : List (List (ℕ × ℕ))
  wts : List ℚ
  x : ℚ
  vis : List Bool
deriving Repr

/-- Redirect the first half-edge in `t[w]` that points to `u` (the reciprocal
half) to the new half `h`, as the `for fx, from := range t[to.To]` loop does. -/
def redirectHalf (t : List (List (ℕ × ℕ))) (w u : ℕ) (h : ℕ × ℕ) :
    List (List (ℕ × ℕ)) :=
  let l := t.getD w []
  match l.findIdx? (fun fr => fr.1 = u) with
  | some fx => t.set w (l.set fx h)
  | none => t

mutual

/-- The `f` closure of `AdditiveTree`: depth-first search for node `i`
starting at `n`, resolving the attachment point on the way out.  Fuel-indexed
(each real call visits an unvisited node, so `len t + 1` suffices). -/
def apF (i : ℕ) : ℕ → ℕ → APState → Int × APState
  | 0, _, s => (-1, s)
  | fuel + 1, n, s =>
    if n = i then ((n : Int), s)
    else
      let s := { s with vis := s.vis.set n true }
      apFLoop i fuel n (s.t.getD n []) 0 s

/-- The `for tx, to := range t[n]` loop body of `f`: skip visited neighbours,
recurse, and on a found connection either pass it up (`x == 0`), splice a new
node into the current edge (`x < edgeWts[to.Label]`), or consume the edge
weight and report the current node (`default`). -/
def apFLoop (i fuel n : ℕ) : List (ℕ × ℕ) → ℕ → APState → Int × APState
  | [], _, s => (-1, s)
  | e :: rest, tx, s =>
    if s.vis.getD e.1 false then apFLoop i fuel n rest (tx + 1) s
    else
      match apF i fuel e.1 s with
      | (p, s) =>
        if p < 0 then apFLoop i fuel n rest (tx + 1) s
        else if s.x = 0 then (p, s)
        else if s.x < s.wts.getD e.2 0 then
          let v := s.t.length
          let t := s.t.set n ((s.t.getD n []).set tx (v, e.2))
          let wts := s.wts.set e.2 (s.wts.getD e.2 0 - s.x)
          let y := wts.length
          let wts := wts ++ [s.x]
          let t := redirectHalf t e.1 n (v, y)
          let t := t ++ [[(n, e.2), (e.1, y)]]
          ((v : Int), { t := t, wts := wts, x := 0, vis := s.vis })
        else
          ((n : Int), { s with x := s.x - s.wts.getD e.2 0 })

end

/-- The recursive `ap` closure of `AdditiveTree`: insert leaf `n` into the
tree over leaves `0..n-1` (`none` models the panics that only non-additive
input could trigger). -/
def apGo (d : Mat) : ℕ → List (List (ℕ × ℕ)) →
    Option (List (List (ℕ × ℕ)) × List ℚ)
  | 0, _ => none
  | 1, t => some ((t.set 0 [(1, 0)]).set 1 [(0, 0)], [getQ d 0 1])
  | n + 2, t =>
    let r := limbWeightSubMatrix d (n + 2)
    let x := getQ d r.2.1 (n + 2) - r.1
    match apGo d (n + 1) t with
    | none => none
    | some (t, wts) =>
      let s : APState :=
        { t := t, wts := wts, x := x,
          vis := (List.range t.length).map fun _ => false }
      match apF r.2.1 (t.length + 1) r.2.2 s with
      | (v, s) =>
        if v < 0 then none
        else
          let y := s.wts.length
          let wts := s.wts ++ [r.1]
          let t := s.t.set (n + 2) [(v.toNat, y)]
          some (adjAppend t v.toNat (n + 2, y), wts)

/-- Go `func (d DistanceMatrix) AdditiveTree()`: allocate the leaf rows and
run `ap(len(d) - 1)`. -/
def AdditiveTree (d : Mat) : Option (List (List (ℕ × ℕ)) × List ℚ) :=
  apGo d (d.length - 1) ((List.range d.length).map fun _ => [])

/-! ## Basic lemmas about the embedding -/

theorem fget_eq (d : FMat) (i j : ℕ) (_hi : i < d.length)
    (hj : j < (d.getD i []).length) :
    fget d i j = (d.getD i []).get ⟨j, hj⟩ := by
  unfold fget
  exact List.getD_eq_getElem (d.getD i []) F.nan hj

theorem foldl_invariant {α σ : Type _} (P : σ → Prop) (f : σ → α → σ)
    (h : ∀ s a, P s → P (f s a)) :
    ∀ (l : List α) (s : σ), P s → P (l.foldl f s) := by
  intro l
  induction l with
  | nil => intro s hs; exact hs
  | cons b t ih => intro s hs; exact ih (f s b) (h s b hs)

theorem foldl_force {α σ : Type _} (S P : σ → Prop) (f : σ → α → σ)
    (hS : ∀ s a, S s → S (f s a)) (hP : ∀ s a, P s → P (f s a)) (a : α)
    (ha : ∀ s, S s → P (f s a)) :
    ∀ (l : List α) (s : σ), a ∈ l → S s → P (l.foldl f s) := by
  intro l
  induction l with
  | nil => intro s hm; exact absurd hm (List.not_mem_nil a)
  | cons b t ih =>
    intro s hm hs
    rcases List.mem_cons.mp hm with hb | ht
    · subst hb
      exact foldl_invariant P f hP t (f s a) (ha s hs)
    · exact ih (f s b) ht (hS s b hs)

/-! ## Claim C10: the empty matrix passes every check -/

/-- C10: for the empty (0-row) distance matrix, the predicates `Square`,
`NonNegative`, `Symmetric`, `ZeroDiagonal` and `TriangleInequality` all
succeed vacuously, and `Validate` returns success (`nil`). -/
theorem claim_C10 :
    Square [] = true ∧ NonNegative [] = true ∧ Symmetric [] = true ∧
    ZeroDiagonal [] = true ∧ (TriangleInequality []).1 = true ∧
    Validate [] = none := by
  decide

/-! ## Claim C9: `Symmetric` never reads the diagonal -/

/-- C9: `Symmetric` examines only off-diagonal pairs `j < i`: any square
matrix whose off-diagonal elements satisfy `d[i][j] == d[j][i]` is reported
symmetric regardless of the diagonal values (a NaN diagonal included). -/
theorem claim_C9 (d : FMat) (hsq : Square d = true)
    (hoff : ∀ i j, i < d.length → j < i →
      F.beq (fget d i j) (fget d j i) = true) :
    Symmetric d = true := by
  unfold Symmetric
  rw [List.all_eq_true]
  rintro ⟨i, row⟩ hp
  rw [List.mk_mem_enum_iff_getElem?] at hp
  have hi : i < d.length := (List.getElem?_eq_some.mp hp).1
  have hrow : d.getD i [] = row := by
    rw [List.getD_eq_getElem?_getD, hp, Option.getD_some]
  rw [List.all_eq_true]
  rintro ⟨j, x⟩ hq
  rw [List.mk_mem_enum_iff_getElem?] at hq
  have hj : j < (row.take i).length := (List.getElem?_eq_some.mp hq).1
  have hji : j < i := lt_of_lt_of_le hj (by simp [List.length_take])
  have hx : row[j]? = some x := by
    rw [List.getElem?_take] at hq
    simpa [hji] using hq
  have hfij : fget d i j = x := by
    unfold fget
    rw [hrow, List.getD_eq_getElem?_getD, hx, Option.getD_some]
  have := hoff i j hi hji
  rw [hfij] at this
  exact this

/-- C9 witness: a square matrix with NaN on the diagonal and matching
off-diagonal entries is reported symmetric. -/
theorem claim_C9_witness :
    Symmetric [[F.nan, F.val 1], [F.val 1, F.nan]] = true :=
  claim_C9 [[F.nan, F.val 1], [F.val 1, F.nan]] (by decide)
    (fun i j hi hj => by
      have hi2 : i < 2 := by simpa using hi
      have hi1 : i = 1 := by omega
      have hj0 : j = 0 := by omega
      subst hi1; subst hj0; decide)

/-! ## Claim C5: `Validate` order and error contents

The order and first-violation parts hold, but only the triangle-inequality
error carries indices: the other four errors are bare `errors.New` messages,
so they cannot carry the offending index set. -/

/-- C5 counterexample: two matrices whose negative elements sit at different
index sets produce the very same error value, so the error returned for the
has-negative condition carries no offending index set, contradicting the
claim that each failure carries the offending index set for its condition. -/
theorem claim_C5_counterexample :
    Validate [[F.val (-1)]] = some VErr.negativeElement ∧
    Validate [[F.val 0, F.val (-1)], [F.val (-1), F.val 0]] =
      some VErr.negativeElement ∧
    NonNegative [[F.val (-1)]] = false ∧
    NonNegative [[F.val 0, F.val (-1)], [F.val (-1), F.val 0]] = false := by
  decide

/-- C5 amended: `Validate` checks not-square, has-negative, not-symmetric,
non-zero-diagonal, triangle-inequality in this order and fails with the first
violated condition; only the triangle-inequality error carries the offending
indices (those of the first violating triple), the four other errors identify
just the condition; it succeeds exactly when all five checks pass. -/
theorem claim_C5_amended (d : FMat) :
    (Validate d = none ↔
      Square d = true ∧ NonNegative d = true ∧ Symmetric d = true ∧
      ZeroDiagonal d = true ∧ (TriangleInequality d).1 = true) ∧
    (Validate d = some VErr.notSquare ↔ Square d = false) ∧
    (Validate d = some VErr.negativeElement ↔
      Square d = true ∧ NonNegative d = false) ∧
    (Validate d = some VErr.notSymmetric ↔
      Square d = true ∧ NonNegative d = true ∧ Symmetric d = false) ∧
    (Validate d = some VErr.nonZeroDiagonal ↔
      Square d = true ∧ NonNegative d = true ∧ Symmetric d = true ∧
      ZeroDiagonal d = false) ∧
    (∀ i j k, Validate d = some (VErr.triangle i j k) ↔
      Square d = true ∧ NonNegative d = true ∧ Symmetric d = true ∧
      ZeroDiagonal d = true ∧ TriangleInequality d = (false, i, j, k)) := by
  unfold Validate
  rcases hsq : Square d <;> rcases hnn : NonNegative d <;>
    rcases hsy : Symmetric d <;> rcases hzd : ZeroDiagonal d <;>
    rcases htr : TriangleInequality d with ⟨ok, ti, tj, tk⟩ <;>
    rcases ok <;> simp_all

/-! ## Claim C7: which Ultrametric entry point consumes its matrix -/

/-- C7 counterexample: `Ultrametric` does not destroy the caller's matrix —
it runs on an internal `Clone`, so after the call the caller's matrix is
unchanged (here on a concrete valid matrix on which the run does real work
and on which the destructive variant would have rewritten the contents). -/
theorem claim_C7_counterexample :
    (Ultrametric [[0, 20, 17, 11], [20, 0, 20, 13],
                  [17, 20, 0, 10], [11, 13, 10, 0]] DAVG).2 =
      [[0, 20, 17, 11], [20, 0, 20, 13], [17, 20, 0, 10], [11, 13, 10, 0]] ∧
    (Ultrametric [[0, 20, 17, 11], [20, 0, 20, 13],
                  [17, 20, 0, 10], [11, 13, 10, 0]] DAVG).1.isSome = true ∧
    (UltrametricD [[0, 20, 17, 11], [20, 0, 20, 13],
                   [17, 20, 0, 10], [11, 13, 10, 0]] DAVG).map
        (fun r => r.2.2) ≠
      some [[0, 20, 17, 11], [20, 0, 20, 13], [17, 20, 0, 10],
            [11, 13, 10, 0]] := by
  refine ⟨rfl, ?_, ?_⟩ <;>
    norm_num [Ultrametric, UltrametricD, Clone, umInit, umLoop, umIter,
      closest, ltInf, getQ, setQ, davgFold, dminFold, DAVG, DMIN, List.foldl,
      List.enum, List.enumFrom, List.range, List.range.loop, Int.toNat_ofNat,
      Int.toNat]

/-- C7 amended: the destructive consumption belongs to `UltrametricD`, which
mutates its receiver; `Ultrametric` itself runs `UltrametricD` on an internal
clone, so the caller's matrix is unchanged after the call and needs no
pre-cloning (`Clone` exists for callers of the `D` variant). -/
theorem claim_C7_amended :
    (∀ (d : Mat) (cdf : ℕ), (Ultrametric d cdf).2 = d) ∧
    (∃ (d : Mat) (r : List (Int × ℕ) × List (Option ℚ × ℚ) × Mat),
      UltrametricD d DAVG = some r ∧ r.2.2 ≠ d) := by
  constructor
  · intro d cdf; rfl
  · refine ⟨[[0, 2, 4], [2, 0, 8], [4, 8, 0]], ?_⟩
    refine ⟨([(3, 1), (3, 1), (4, 1), (4, 2), (-1, 3)],
      [(some 1, 0), (some 1, 0), (some 3, 0), (some 2, 1), (none, 3)],
      [[0, 1, 6], [1, 0, 8], [6, 8, 0]]), ?_, by decide⟩
    norm_num [UltrametricD, umInit, umLoop, umIter, closest, ltInf, getQ,
      setQ, davgFold, dminFold, DAVG, DMIN, List.foldl, List.enum,
      List.enumFrom, List.range, List.range.loop, Int.toNat_ofNat, Int.toNat]

/-! ## Characterization of the `closest` scan -/

/-- The distance looked up for a scan candidate `(i, j, c)`. -/
def pairVal (dm : Mat) (p : ℕ × ℕ × ℕ) : ℚ := getQ dm p.1 p.2.1

/-- One accumulator update of the `closest` scan on a flattened candidate. -/
def pairStep (dm : Mat) (acc : Option ℚ × Int × Int × ℕ) (p : ℕ × ℕ × ℕ) :
    Option ℚ × Int × Int × ℕ :=
  if ltInf (pairVal dm p) acc.1 then
    (some (pairVal dm p), (p.1 : Int), (p.2.1 : Int), p.2.2)
  else acc

/-- The candidates `(i, j, c)` examined by `closest`, in scan order: `i` over
the clusters list, `(c, j)` over its enumeration, filtered by `i < j`. -/
def scanPairs (clusters : List ℕ) : List (ℕ × ℕ × ℕ) :=
  clusters.flatMap fun i =>
    clusters.enum.filterMap fun cj =>
      if i < cj.2 then some (i, cj.2, cj.1) else none

theorem foldl_filterMap {α β σ : Type _} (f : α → Option β) (g : σ → β → σ) :
    ∀ (l : List α) (s : σ),
      (l.filterMap f).foldl g s =
        l.foldl (fun s a => match f a with | some b => g s b | none => s) s := by
  intro l
  induction l with
  | nil => intro s; rfl
  | cons a t ih =>
    intro s
    rw [List.filterMap_cons]
    rcases hfa : f a with _ | b <;> simp only [List.foldl_cons, hfa, ih]

theorem foldl_flatMap {α β σ : Type _} (f : α → List β) (g : σ → β → σ) :
    ∀ (l : List α) (s : σ),
      (l.flatMap f).foldl g s = l.foldl (fun s a => (f a).foldl g s) s := by
  intro l
  induction l with
  | nil => intro s; rfl
  | cons a t ih =>
    intro s
    rw [List.flatMap_cons, List.foldl_append, List.foldl_cons, ih]

theorem closest_eq_pairFold (dm : Mat) (clusters : List ℕ) :
    closest dm clusters =
      ((scanPairs clusters).foldl (pairStep dm) (none, -1, -1, 0)).2 := by
  simp only [closest, scanPairs]
  rw [foldl_flatMap]
  congr 2
  funext acc i
  rw [foldl_filterMap]
  congr 1
  funext acc' cj
  by_cases h : i < cj.2 <;> simp [h, pairStep, pairVal]

theorem pairFold_some (dm : Mat) :
    ∀ (L : List (ℕ × ℕ × ℕ)) (v : ℚ) (pl : Int × Int × ℕ),
      (L.foldl (pairStep dm) (some v, pl) = (some v, pl) ∧
        ∀ q ∈ L, v ≤ pairVal dm q) ∨
      (∃ L1 p L2, L = L1 ++ p :: L2 ∧
        L.foldl (pairStep dm) (some v, pl) =
          (some (pairVal dm p), (p.1 : Int), (p.2.1 : Int), p.2.2) ∧
        pairVal dm p < v ∧ (∀ q ∈ L1, pairVal dm p < pairVal dm q) ∧
        (∀ q ∈ L, pairVal dm p ≤ pairVal dm q)) := by
  intro L
  induction L with
  | nil => intro v pl; left; exact ⟨rfl, by simp⟩
  | cons q0 rest ih =>
    intro v pl
    rw [List.foldl_cons]
    by_cases h0 : pairVal dm q0 < v
    · rw [show pairStep dm (some v, pl) q0 =
          (some (pairVal dm q0), (q0.1 : Int), (q0.2.1 : Int), q0.2.2) by
        simp [pairStep, ltInf, h0]]
      rcases ih (pairVal dm q0) ((q0.1 : Int), (q0.2.1 : Int), q0.2.2) with
        ⟨heq, hall⟩ | ⟨L1, p, L2, hsplit, heq, hlt, hpre, hall⟩
      · right
        refine ⟨[], q0, rest, by simp, heq, h0, by simp, ?_⟩
        intro q hq
        rcases List.mem_cons.mp hq with rfl | hq
        · exact le_refl _
        · exact hall q hq
      · right
        refine ⟨q0 :: L1, p, L2, by rw [hsplit]; rfl, heq,
          lt_trans hlt h0, ?_, ?_⟩
        · intro q hq
          rcases List.mem_cons.mp hq with rfl | hq
          · exact hlt
          · exact hpre q hq
        · intro q hq
          rcases List.mem_cons.mp hq with rfl | hq
          · exact le_of_lt hlt
          · exact hall q hq
    · rw [show pairStep dm (some v, pl) q0 = (some v, pl) by
        simp [pairStep, ltInf, h0]]
      rcases ih v pl with ⟨heq, hall⟩ | ⟨L1, p, L2, hsplit, heq, hlt, hpre, hall⟩
      · left
        refine ⟨heq, ?_⟩
        intro q hq
        rcases List.mem_cons.mp hq with rfl | hq
        · exact le_of_not_lt h0
        · exact hall q hq
      · right
        refine ⟨q0 :: L1, p, L2, by rw [hsplit]; rfl, heq, hlt, ?_, ?_⟩
        · intro q hq
          rcases List.mem_cons.mp hq with rfl | hq
          · exact lt_of_lt_of_le hlt (le_of_not_lt h0)
          · exact hpre q hq
        · intro q hq
          rcases List.mem_cons.mp hq with rfl | hq
          · exact le_of_lt (lt_of_lt_of_le hlt (le_of_not_lt h0))
          · exact hall q hq

theorem pairFold_none (dm : Mat) (L : List (ℕ × ℕ × ℕ)) (hne : L ≠ []) :
    ∃ L1 p L2, L = L1 ++ p :: L2 ∧
      L.foldl (pairStep dm) (none, -1, -1, 0) =
        (some (pairVal dm p), (p.1 : Int), (p.2.1 : Int), p.2.2) ∧
      (∀ q ∈ L1, pairVal dm p < pairVal dm q) ∧
      (∀ q ∈ L, pairVal dm p ≤ pairVal dm q) := by
  rcases L with _ | ⟨q0, rest⟩
  · exact absurd rfl hne
  rw [List.foldl_cons,
    show pairStep dm (none, -1, -1, 0) q0 =
      (some (pairVal dm q0), (q0.1 : Int), (q0.2.1 : Int), q0.2.2) by
        simp [pairStep, ltInf]]
  rcases pairFold_some dm rest (pairVal dm q0)
      ((q0.1 : Int), (q0.2.1 : Int), q0.2.2) with
    ⟨heq, hall⟩ | ⟨L1, p, L2, hsplit, heq, hlt, hpre, hall⟩
  · refine ⟨[], q0, rest, by simp, heq, by simp, ?_⟩
    intro q hq
    rcases List.mem_cons.mp hq with rfl | hq
    · exact le_refl _
    · exact hall q hq
  · refine ⟨q0 :: L1, p, L2, by rw [hsplit]; rfl, heq, ?_, ?_⟩
    · intro q hq
      rcases List.mem_cons.mp hq with rfl | hq
      · exact hlt
      · exact hpre q hq
    · intro q hq
      rcases List.mem_cons.mp hq with rfl | hq
      · exact le_of_lt hlt
      · exact hall q hq

theorem mem_scanPairs {clusters : List ℕ} {i j c : ℕ} :
    (i, j, c) ∈ scanPairs clusters ↔
      i ∈ clusters ∧ i < j ∧ clusters[c]? = some j := by
  constructor
  · intro h
    rcases List.mem_flatMap.mp h with ⟨i', hi', hmem⟩
    rcases List.mem_filterMap.mp hmem with ⟨cj, hcj, heq⟩
    by_cases hlt : i' < cj.2
    · rw [if_pos hlt] at heq
      injection heq with h1
      rw [Prod.mk.injEq] at h1
      obtain ⟨rfl, h2⟩ := h1
      rw [Prod.mk.injEq] at h2
      obtain ⟨h3, h4⟩ := h2
      have hcj' : clusters[cj.1]? = some cj.2 :=
        List.mk_mem_enum_iff_getElem?.mp (by exact hcj)
      rw [h4, h3] at hcj'
      exact ⟨hi', h3 ▸ hlt, hcj'⟩
    · rw [if_neg hlt] at heq
      exact absurd heq (by simp)
  · rintro ⟨hi, hij, hc⟩
    apply List.mem_flatMap.mpr
    refine ⟨i, hi, ?_⟩
    apply List.mem_filterMap.mpr
    refine ⟨(c, j), List.mk_mem_enum_iff_getElem?.mpr hc, ?_⟩
    rw [if_pos hij]

/-- Full characterization of `closest`: when some live pair exists, it
returns the first candidate (in scan order over the clusters list) attaining
the global minimum of `dm[i][j]` over live candidates. -/
theorem closest_char (dm : Mat) (clusters : List ℕ) {i0 j0 : ℕ}
    (hi : i0 ∈ clusters) (hj : j0 ∈ clusters) (hij : i0 < j0) :
    ∃ p : ℕ × ℕ × ℕ, p ∈ scanPairs clusters ∧
      closest dm clusters = ((p.1 : Int), (p.2.1 : Int), p.2.2) ∧
      (∀ q ∈ scanPairs clusters, pairVal dm p ≤ pairVal dm q) ∧
      ∃ L1 L2, scanPairs clusters = L1 ++ p :: L2 ∧
        ∀ q ∈ L1, pairVal dm p < pairVal dm q := by
  have hc : ∃ c : ℕ, clusters[c]? = some j0 := by
    rcases List.mem_iff_getElem.mp hj with ⟨n, hn, he⟩
    exact ⟨n, by rw [List.getElem?_eq_getElem hn, he]⟩
  rcases hc with ⟨c, hc⟩
  have hmem0 : (i0, j0, c) ∈ scanPairs clusters :=
    mem_scanPairs.mpr ⟨hi, hij, hc⟩
  have hne : scanPairs clusters ≠ [] := List.ne_nil_of_mem hmem0
  rcases pairFold_none dm (scanPairs clusters) hne with
    ⟨L1, p, L2, hsplit, heq, hpre, hall⟩
  refine ⟨p, ?_, ?_, ?_, L1, L2, hsplit, hpre⟩
  · rw [hsplit]
    exact List.mem_append.mpr (Or.inr (List.mem_cons_self p L2))
  · rw [closest_eq_pairFold, heq]
  · exact hall

/-! ## Claim C8: invalid linkage mode -/

/-- C8 counterexample: on a 2-row matrix the merge loop breaks before the
distance-update switch, so an unsupported linkage mode (here `2`) is never
examined and the call returns a result instead of panicking. -/
theorem claim_C8_counterexample :
    2 ≠ DAVG ∧ 2 ≠ DMIN ∧ (UltrametricD [[0, 1], [1, 0]] 2).isSome = true := by
  refine ⟨by decide, by decide, ?_⟩
  norm_num [UltrametricD, umInit, umLoop, umIter, closest, ltInf, getQ, setQ,
    davgFold, dminFold, DAVG, DMIN, List.foldl, List.enum, List.enumFrom,
    List.range, List.range.loop, Int.toNat_ofNat, Int.toNat]

/-- C8 amended: calling `UltrametricD` (and hence `Ultrametric`) with a
linkage mode other than `DAVG` and `DMIN` panics for every matrix with at
least 3 rows (the loop reaches the distance-update switch); a 2-row matrix
returns normally because the loop breaks before examining the mode. -/
theorem claim_C8_amended (d : Mat) (cdf : ℕ) (hA : cdf ≠ DAVG)
    (hM : cdf ≠ DMIN) (h3 : 3 ≤ d.length) : UltrametricD d cdf = none := by
  have hA' : cdf ≠ 0 := hA
  have hM' : cdf ≠ 1 := hM
  have hiter : umIter cdf (umInit d) = UMStep.halt := by
    have h0 : (0 : ℕ) ∈ List.range d.length := List.mem_range.mpr (by omega)
    have h1 : (1 : ℕ) ∈ List.range d.length := List.mem_range.mpr (by omega)
    rcases closest_char d (List.range d.length) h0 h1 (by omega) with
      ⟨p, hpmem, hceq, hmin, hfirst⟩
    have hcond : ¬((p.1 : Int) < 0 ∨ ((p.2.1 : Int)) < 0) := by
      push_neg
      exact ⟨Int.natCast_nonneg _, Int.natCast_nonneg _⟩
    have hne2 : d.length ≠ 2 := by omega
    simp only [umIter, umInit, hceq]
    rw [if_neg hcond]
    simp [List.length_range, hne2, hA', hM', DAVG, DMIN]
  unfold UltrametricD
  obtain ⟨m, hm⟩ : ∃ m, d.length = m + 1 := ⟨d.length - 1, by omega⟩
  rw [hm]
  simp only [umLoop, hiter]

/-- C8 witness: a concrete 3-row matrix with mode 5 panics. -/
theorem claim_C8_witness :
    UltrametricD [[0, 1, 2], [1, 0, 3], [2, 3, 0]] 5 = none :=
  claim_C8_amended [[0, 1, 2], [1, 0, 3], [2, 3, 0]] 5 (by decide) (by decide)
    (by decide)

/-! ## Claim C6: selection rule of the merge step -/

/-- Projection of a continuing loop step onto its successor state. -/
def UMStep.nextState : UMStep → UMState
  | UMStep.next s => s
  | _ => ⟨[], [], [], [], []⟩

/-- The valid matrix of the C6 counterexample. -/
def cexC6mat : Mat :=
  [[0, 2, 5, 8, 4], [2, 0, 5, 8, 6], [5, 5, 0, 8, 8],
   [8, 8, 8, 0, 8], [4, 6, 8, 8, 0]]

/-- The loop state after the first merge step on `cexC6mat`. -/
def cexC6state : UMState :=
  { dm := [[0, 1, 5, 8, 5], [1, 0, 5, 8, 6], [5, 5, 0, 8, 8],
           [8, 8, 8, 0, 8], [5, 6, 8, 8, 0]]
    pl := [(5, 1), (5, 1), (-1, 1), (-1, 1), (-1, 1), (-1, 2)]
    ul := [(some 1, 0), (some 1, 0), (none, 0), (none, 0), (none, 0),
           (none, 1)]
    clusters := [0, 4, 2, 3]
    cx := [5, 1, 2, 3, 4] }

set_option maxRecDepth 8000 in
set_option maxHeartbeats 1000000 in
/-- C6 counterexample: on a valid matrix, after the first merge the live list
is `[0, 4, 2, 3]` (swap-delete moved index 4 forward), and with the tie
`d[0][2] = d[0][4]` at the global minimum the second merge step selects the
pair `(0, 4)` — not the row-major smaller pair `(0, 2)` that the claim's
tie-break rule requires. -/
theorem claim_C6_counterexample :
    Validate (liftQ cexC6mat) = none ∧
    umIter DAVG (umInit cexC6mat) = UMStep.next cexC6state ∧
    cexC6state.clusters = [0, 4, 2, 3] ∧
    getQ cexC6state.dm 0 2 = getQ cexC6state.dm 0 4 ∧
    closest cexC6state.dm cexC6state.clusters = (0, 4, 1) := by
  refine ⟨?_, ?_, by decide, by decide, by decide⟩
  · norm_num [Validate, Square, NonNegative, Symmetric, ZeroDiagonal,
      TriangleInequality, triTuples, triViolation, fget, liftQ, F.beq, F.flt,
      F.add, cexC6mat, List.all, List.enum, List.enumFrom, List.range,
      List.range.loop, List.flatMap, List.take]
  · norm_num [cexC6mat, cexC6state, umInit, umIter, closest, ltInf, getQ,
      setQ, davgFold, dminFold, DAVG, DMIN, List.foldl, List.enum,
      List.enumFrom, List.range, List.range.loop, List.take, List.set,
      Int.toNat_ofNat, Int.toNat]

/-- C6 amended: in every merge step the selected pair `(d1 < d2)` of live
indices attains the global minimum `d[d1][d2]` over live pairs, but ties are
broken by first-found in the scan order of the *current live-clusters list*
(whose order is perturbed by swap-deletion), not by smallest index pair in
row-major order. -/
theorem claim_C6_amended (dm : Mat) (clusters : List ℕ) {i0 j0 : ℕ}
    (hi : i0 ∈ clusters) (hj : j0 ∈ clusters) (hij : i0 < j0) :
    ∃ d1 d2 c : ℕ, closest dm clusters = ((d1 : Int), (d2 : Int), c) ∧
      d1 ∈ clusters ∧ d2 ∈ clusters ∧ d1 < d2 ∧
      (∀ i j, i ∈ clusters → j ∈ clusters → i < j →
        getQ dm d1 d2 ≤ getQ dm i j) ∧
      ∃ L1 L2, scanPairs clusters = L1 ++ (d1, d2, c) :: L2 ∧
        ∀ q ∈ L1, getQ dm d1 d2 < pairVal dm q := by
  rcases closest_char dm clusters hi hj hij with
    ⟨p, hpmem, hceq, hmin, L1, L2, hsplit, hpre⟩
  have hp : (p.1, p.2.1, p.2.2) = p := rfl
  have hmem := mem_scanPairs.mp (hp ▸ hpmem)
  refine ⟨p.1, p.2.1, p.2.2, hceq, hmem.1, ?_, hmem.2.1, ?_, L1, L2, ?_, ?_⟩
  · exact List.getElem?_mem hmem.2.2
  · intro i j hi' hj' hij'
    have hc : ∃ c : ℕ, clusters[c]? = some j := by
      rcases List.mem_iff_getElem.mp hj' with ⟨n, hn, he⟩
      exact ⟨n, by rw [List.getElem?_eq_getElem hn, he]⟩
    rcases hc with ⟨c', hc'⟩
    exact hmin (i, j, c') (mem_scanPairs.mpr ⟨hi', hij', hc'⟩)
  · rw [hsplit, hp]
  · exact hpre

/-- C6 witness: the amended selection rule on a concrete matrix and live
list. -/
theorem claim_C6_witness :
    ∃ d1 d2 c : ℕ,
      closest [[0, 7], [7, 0]] ([0, 1] : List ℕ) =
        ((d1 : Int), (d2 : Int), c) ∧
      d1 ∈ ([0, 1] : List ℕ) ∧ d2 ∈ ([0, 1] : List ℕ) ∧ d1 < d2 ∧
      (∀ i j, i ∈ ([0, 1] : List ℕ) → j ∈ ([0, 1] : List ℕ) → i < j →
        getQ [[0, 7], [7, 0]] d1 d2 ≤ getQ [[0, 7], [7, 0]] i j) ∧
      ∃ L1 L2, scanPairs ([0, 1] : List ℕ) = L1 ++ (d1, d2, c) :: L2 ∧
        ∀ q ∈ L1, getQ [[0, 7], [7, 0]] d1 d2 < pairVal [[0, 7], [7, 0]] q :=
  @claim_C6_amended [[0, 7], [7, 0]] ([0, 1] : List ℕ) 0 1 (by decide)
    (by decide) (by decide)

/-! ## Claim C2: the `Additive` four-point test -/

/-- The four-point condition at one quadruple: the two largest of the three
sums are equal, i.e. the maximum is attained at least twice. -/
def twoMaxEq (a b c : ℚ) : Prop :=
  (a = b ∧ c ≤ a) ∨ (a = c ∧ b ≤ a) ∨ (b = c ∧ a ≤ b)

/-- The four-point condition of the spec at indices `(i, j, k, l)`. -/
def fourPoint (d : Mat) (i j k l : ℕ) : Prop :=
  twoMaxEq (addS1 d i j k l) (addS2 d i j k l) (addS3 d i j k l)

theorem twoMaxEq_passCheck {a b c : ℚ} (h : twoMaxEq a b c) :
    passCheck a b c = true := by
  unfold passCheck
  rcases h with ⟨hab, hca⟩ | ⟨hac, hba⟩ | ⟨hbc, hab⟩
  · rw [if_pos hab]
    exact decide_eq_true (hab ▸ hca)
  · by_cases hab : a = b
    · rw [if_pos hab]
      exact decide_eq_true (by rw [← hab, ← hac])
    · rw [if_neg hab, if_pos hac]
      exact decide_eq_true hba
  · by_cases hab' : a = b
    · rw [if_pos hab']
      exact decide_eq_true (hbc ▸ le_refl b)
    · by_cases hac : a = c
      · exact absurd (hac.trans hbc.symm) hab'
      · rw [if_neg hab', if_neg hac]
        exact decide_eq_true hab

theorem passCheck_twoMaxEq {a b c : ℚ} (h : passCheck a b c = true)
    (hne : a = b ∨ a = c ∨ b = c) : twoMaxEq a b c := by
  unfold passCheck at h
  rcases hne with hab | hac | hbc
  · rw [if_pos hab] at h
    exact Or.inl ⟨hab, hab ▸ of_decide_eq_true h⟩
  · by_cases hab : a = b
    · rw [if_pos hab] at h
      exact Or.inl ⟨hab, hab ▸ of_decide_eq_true h⟩
    · rw [if_neg hab, if_pos hac] at h
      exact Or.inr (Or.inl ⟨hac, of_decide_eq_true h⟩)
  · by_cases hab : a = b
    · rw [if_pos hab] at h
      exact Or.inl ⟨hab, hab ▸ of_decide_eq_true h⟩
    · by_cases hac : a = c
      · rw [if_neg hab, if_pos hac] at h
        exact Or.inr (Or.inl ⟨hac, of_decide_eq_true h⟩)
      · rw [if_neg hab, if_neg hac] at h
        exact Or.inr (Or.inr ⟨hbc, of_decide_eq_true h⟩)

theorem passCheck_distinct {a b c : ℚ} (hab : a ≠ b) (hac : a ≠ c) :
    passCheck a b c = decide (a ≤ b) := by
  unfold passCheck
  rw [if_neg hab, if_neg hac]

theorem cross_contra {A B C : ℚ} (hAB : A ≠ B) (hAC : A ≠ C) (hBC : B ≠ C)
    (h1 : passCheck A B C = true) (h2 : passCheck B A C = true) : False := by
  rw [passCheck_distinct hAB hAC] at h1
  rw [passCheck_distinct (Ne.symm hAB) hBC] at h2
  exact hAB (le_antisymm (of_decide_eq_true h1) (of_decide_eq_true h2))

theorem mem_addTuples {d : Mat} {i j k l : ℕ} :
    (i, j, k, l) ∈ addTuples d ↔
      i < d.length ∧ j < i ∧ k < j ∧ l < (d.getD i []).length := by
  simp only [addTuples, List.mem_flatMap, List.mem_map, List.mem_range]
  constructor
  · rintro ⟨i', hi', j', hj', k', hk', l', hl', heq⟩
    obtain ⟨rfl, rfl, rfl, rfl⟩ :
        i' = i ∧ j' = j ∧ k' = k ∧ l' = l := by
      rw [Prod.mk.injEq] at heq
      obtain ⟨h1, heq⟩ := heq
      rw [Prod.mk.injEq] at heq
      obtain ⟨h2, heq⟩ := heq
      rw [Prod.mk.injEq] at heq
      exact ⟨h1, h2, heq.1, heq.2⟩
    exact ⟨hi', hj', hk', hl'⟩
  · rintro ⟨hi, hj, hk, hl⟩
    exact ⟨i, hi, j, hj, k, hk, l, hl, rfl⟩

theorem additive_true_iff (d : Mat) :
    (Additive d).1 = true ↔ ∀ t ∈ addTuples d, addCheck d t = true := by
  unfold Additive
  rcases h : (addTuples d).find? (fun t => !addCheck d t) with _ | t
  · simp only [true_iff]
    intro t ht
    have := List.find?_eq_none.mp h t ht
    simpa using this
  · simp only [Bool.false_eq_true, false_iff, not_forall]
    refine ⟨t, List.mem_of_find?_eq_some h, ?_⟩
    have := List.find?_some h
    simp only [Bool.not_eq_true'] at this
    simp [this]

theorem additive_false_fails (d : Mat) (h : (Additive d).1 = false) :
    (Additive d).2 ∈ addTuples d ∧ addCheck d (Additive d).2 = false := by
  unfold Additive at *
  rcases hf : (addTuples d).find? (fun t => !addCheck d t) with _ | t
  · rw [hf] at h
    simp at h
  · have hmem := List.mem_of_find?_eq_some hf
    have hfail := List.find?_some hf
    simp only [Bool.not_eq_true'] at hfail
    exact ⟨hmem, hfail⟩

/-! ### Extracting rational-level facts from the boolean predicates -/

theorem liftQ_length (d : Mat) : (liftQ d).length = d.length := by
  simp [liftQ]

theorem liftQ_getD (d : Mat) (i : ℕ) :
    (liftQ d).getD i [] = (d.getD i []).map F.val := by
  rw [List.getD_eq_getElem?_getD, List.getD_eq_getElem?_getD]
  unfold liftQ
  rw [List.getElem?_map]
  rcases d[i]? with _ | row <;> rfl

theorem fget_liftQ (d : Mat) (i j : ℕ) (hj : j < (d.getD i []).length) :
    fget (liftQ d) i j = F.val (getQ d i j) := by
  unfold fget getQ
  rw [liftQ_getD]
  have hj' : j < ((d.getD i []).map F.val).length := by simpa using hj
  rw [List.getD_eq_getElem _ _ hj', List.getD_eq_getElem _ _ hj,
    List.getElem_map]

theorem square_spec (d : Mat) (h : Square (liftQ d) = true) :
    ∀ i, i < d.length → (d.getD i []).length = d.length := by
  unfold Square at h
  rw [List.all_eq_true] at h
  intro i hi
  have hi' : i < (liftQ d).length := by rw [liftQ_length]; exact hi
  have hmem : (liftQ d).getD i [] ∈ liftQ d := by
    rw [List.getD_eq_getElem ((liftQ d)) [] hi']
    exact List.getElem_mem hi'
  have := h _ hmem
  rw [liftQ_getD] at this
  simp only [List.length_map, liftQ_length, Nat.beq_eq_true_eq] at this
  exact this

theorem symmetric_specQ (d : Mat) (hsq : Square (liftQ d) = true)
    (h : Symmetric (liftQ d) = true) :
    ∀ a b, a < d.length → b < d.length → getQ d a b = getQ d b a := by
  have hsp := square_spec d hsq
  have key : ∀ i j, i < d.length → j < i → getQ d i j = getQ d j i := by
    intro i j hi hj
    unfold Symmetric at h
    rw [List.all_eq_true] at h
    have hi' : i < (liftQ d).length := by rw [liftQ_length]; exact hi
    have hrowF : (liftQ d)[i]? = some ((d.getD i []).map F.val) := by
      rw [List.getElem?_eq_getElem hi']
      have : (liftQ d)[i] = (liftQ d).getD i [] :=
        (List.getD_eq_getElem (liftQ d) [] hi').symm
      rw [this, liftQ_getD]
    have hmem : (i, (d.getD i []).map F.val) ∈ (liftQ d).enum :=
      List.mk_mem_enum_iff_getElem?.mpr hrowF
    have hinner := h _ hmem
    rw [List.all_eq_true] at hinner
    have hjrow : j < (d.getD i []).length := by
      rw [hsp i hi]; omega
    have hjtake : j < (((d.getD i []).map F.val).take i).length := by
      simp only [List.length_take, List.length_map]
      omega
    have hq : (((d.getD i []).map F.val).take i)[j]? =
        some (F.val (getQ d i j)) := by
      rw [List.getElem?_take]
      rw [if_pos hj, List.getElem?_map, List.getElem?_eq_getElem hjrow]
      unfold getQ
      rw [List.getD_eq_getElem _ _ hjrow]
      rfl
    have hmem2 : (j, F.val (getQ d i j)) ∈
        ((((d.getD i []).map F.val).take i)).enum :=
      List.mk_mem_enum_iff_getElem?.mpr hq
    have hbeq := hinner _ hmem2
    have hji : j < d.length := lt_trans hj hi
    have hij' : i < (d.getD j []).length := by rw [hsp j hji]; exact hi
    rw [show ((j, F.val (getQ d i j)) : ℕ × F).2 = F.val (getQ d i j) from rfl,
      show ((j, F.val (getQ d i j)) : ℕ × F).1 = j from rfl,
      fget_liftQ d j i hij'] at hbeq
    unfold F.beq at hbeq
    simpa using hbeq
  intro a b ha hb
  rcases lt_trichotomy a b with h1 | rfl | h2
  · exact (key b a hb h1).symm
  · rfl
  · exact key a b ha h2

theorem swap_sums (d : Mat) (hs : ∀ a b, a < d.length → b < d.length →
      getQ d a b = getQ d b a) {p q r s : ℕ} (hp : p < d.length)
    (hq : q < d.length) (hr : r < d.length) (hsx : s < d.length) :
    addS1 d q r s p = addS2 d p r s q ∧
    addS2 d q r s p = addS1 d p r s q ∧
    addS3 d q r s p = addS3 d p r s q := by
  unfold addS1 addS2 addS3
  refine ⟨?_, ?_, ?_⟩
  · rw [hs q r hq hr, hs s p hsx hp]
    ring
  · rw [hs q s hq hsx, hs r p hr hp]
    ring
  · rw [hs q p hq hp]

/-- C2 amended: for a square symmetric matrix, `Additive` returns `ok = true`
iff every quadruple `i > j > k` (with `l` over all indices) satisfies the
four-point condition; when it fails, the returned quadruple violates the
condition and is the first quadruple at which the per-quadruple comparison
fires — which need not be the first quadruple violating the condition. -/
theorem claim_C2_amended (d : Mat) (hsq : Square (liftQ d) = true)
    (hsym : Symmetric (liftQ d) = true) :
    ((Additive d).1 = true ↔
      ∀ i j k l, i < d.length → j < i → k < j → l < d.length →
        fourPoint d i j k l) ∧
    ((Additive d).1 = false →
      ¬ fourPoint d (Additive d).2.1 (Additive d).2.2.1 (Additive d).2.2.2.1
        (Additive d).2.2.2.2) := by
  have hrow := square_spec d hsq
  have hs := symmetric_specQ d hsq hsym
  refine ⟨⟨?_, ?_⟩, ?_⟩
  · -- ok = true implies the condition everywhere
    intro htrue i j k l hi hj hk hl
    have hall := (additive_true_iff d).mp htrue
    by_contra hnot
    have hjn : j < d.length := lt_trans hj hi
    have hkn : k < d.length := lt_trans hk hjn
    have hmemt : (i, j, k, l) ∈ addTuples d :=
      mem_addTuples.mpr ⟨hi, hj, hk, by rw [hrow i hi]; exact hl⟩
    have hcheck : passCheck (addS1 d i j k l) (addS2 d i j k l)
        (addS3 d i j k l) = true := hall _ hmemt
    by_cases hdeg : addS1 d i j k l = addS2 d i j k l ∨
        addS1 d i j k l = addS3 d i j k l ∨
        addS2 d i j k l = addS3 d i j k l
    · exact hnot (passCheck_twoMaxEq hcheck hdeg)
    push_neg at hdeg
    obtain ⟨hd1, hd2, hd3⟩ := hdeg
    -- the three sums are pairwise distinct; l cannot coincide with i, j, k
    have hli : l ≠ i := by
      intro h'
      subst h'
      apply hd1
      unfold addS1 addS2
      rw [hs k l hkn hl, hs j l hjn hl]
      ring
    have hlj : l ≠ j := by
      intro h'
      subst h'
      apply hd2
      unfold addS1 addS3
      rw [hs k l hkn hl]
    have hlk : l ≠ k := by
      intro h'
      subst h'
      exact hd3 rfl
    -- four distinct indices: case on the position of l
    rcases show l < k ∨ (k < l ∧ l < j) ∨ (j < l ∧ l < i) ∨ i < l by omega
      with hA | ⟨hB1, hB2⟩ | ⟨hC1, hC2⟩ | hD
    · -- l < k: contradiction from tuples (i,k,l,j) and (j,k,l,i)
      have h1 := hall _ (mem_addTuples.mpr
        ⟨hi, hk.trans hj, hA, by rw [hrow i hi]; exact hjn⟩)
      have h2 := hall _ (mem_addTuples.mpr
        ⟨hjn, hk, hA, by rw [hrow j hjn]; exact hi⟩)
      have e1 : addS1 d i k l j = addS2 d i j k l := by
        unfold addS1 addS2; rw [hs l j hl hjn]
      have e2 : addS2 d i k l j = addS3 d i j k l := by
        unfold addS2 addS3; rw [hs k j hkn hjn]
      have e3 : addS3 d i k l j = addS1 d i j k l := rfl
      obtain ⟨f1, f2, f3⟩ := swap_sums d hs hi hjn hkn hl
      rw [show addCheck d (i, k, l, j) = passCheck (addS1 d i k l j)
          (addS2 d i k l j) (addS3 d i k l j) from rfl, e1, e2, e3] at h1
      rw [show addCheck d (j, k, l, i) = passCheck (addS1 d j k l i)
          (addS2 d j k l i) (addS3 d j k l i) from rfl, f1, f2, f3,
        e1, e2, e3] at h2
      exact cross_contra hd3 (Ne.symm hd1) (Ne.symm hd2) h1 h2
    · -- k < l < j: tuples (i,l,k,j) and (j,l,k,i)
      have h1 := hall _ (mem_addTuples.mpr
        ⟨hi, hB2.trans hj, hB1, by rw [hrow i hi]; exact hjn⟩)
      have h2 := hall _ (mem_addTuples.mpr
        ⟨hjn, hB2, hB1, by rw [hrow j hjn]; exact hi⟩)
      have e1 : addS1 d i l k j = addS3 d i j k l := by
        unfold addS1 addS3; rw [hs k j hkn hjn]
      have e2 : addS2 d i l k j = addS2 d i j k l := by
        unfold addS2; rw [hs l j hl hjn]
      have e3 : addS3 d i l k j = addS1 d i j k l := by
        unfold addS3 addS1; rw [hs l k hl hkn]
      obtain ⟨f1, f2, f3⟩ := swap_sums d hs hi hjn hl hkn
      rw [show addCheck d (i, l, k, j) = passCheck (addS1 d i l k j)
          (addS2 d i l k j) (addS3 d i l k j) from rfl, e1, e2, e3] at h1
      rw [show addCheck d (j, l, k, i) = passCheck (addS1 d j l k i)
          (addS2 d j l k i) (addS3 d j l k i) from rfl, f1, f2, f3,
        e1, e2, e3] at h2
      exact cross_contra (Ne.symm hd3) (Ne.symm hd2) (Ne.symm hd1) h1 h2
    · -- j < l < i: tuples (i,j,k,l) and (l,j,k,i)
      have h2 := hall _ (mem_addTuples.mpr
        ⟨hl, hC1, hk, by rw [hrow l hl]; exact hi⟩)
      obtain ⟨f1, f2, f3⟩ := swap_sums d hs hi hl hjn hkn
      rw [show addCheck d (l, j, k, i) = passCheck (addS1 d l j k i)
          (addS2 d l j k i) (addS3 d l j k i) from rfl, f1, f2, f3] at h2
      exact cross_contra hd1 hd2 hd3 hcheck h2
    · -- i < l: tuples (l,j,k,i) and (i,j,k,l)
      have h1 := hall _ (mem_addTuples.mpr
        ⟨hl, hj.trans hD, hk, by rw [hrow l hl]; exact hi⟩)
      have e1 : addS1 d l j k i = addS2 d i j k l := by
        unfold addS1 addS2; rw [hs l j hl hjn, hs k i hkn hi]; ring
      have e2 : addS2 d l j k i = addS1 d i j k l := by
        unfold addS2 addS1; rw [hs l k hl hkn, hs j i hjn hi]; ring
      have e3 : addS3 d l j k i = addS3 d i j k l := by
        unfold addS3; rw [hs l i hl hi]
      rw [show addCheck d (l, j, k, i) = passCheck (addS1 d l j k i)
          (addS2 d l j k i) (addS3 d l j k i) from rfl, e1, e2, e3] at h1
      exact cross_contra (Ne.symm hd1) hd3 hd2 h1 hcheck
  · -- the condition everywhere implies ok = true
    intro hcond
    apply (additive_true_iff d).mpr
    rintro ⟨i, j, k, l⟩ ht
    obtain ⟨hi, hj, hk, hl⟩ := mem_addTuples.mp ht
    rw [hrow i hi] at hl
    exact twoMaxEq_passCheck (hcond i j k l hi hj hk hl)
  · -- a returned failing quadruple violates the condition
    intro hfalse hfp
    obtain ⟨hmem, hfail⟩ := additive_false_fails d hfalse
    have htrue : addCheck d (Additive d).2 = true := twoMaxEq_passCheck hfp
    rw [htrue] at hfail
    exact absurd hfail (by decide)

/-- The symmetric matrix of the C2 counterexample (pairing sums 10, 12, 8). -/
def cexC2mat : Mat := [[0, 5, 6, 4], [5, 0, 4, 6], [6, 4, 0, 5], [4, 6, 5, 0]]

/-- C2 counterexample: `Additive` returns the quadruple `(3,1,0,2)`, yet the
quadruple `(2,1,0,3)` already violates the four-point condition (its three
sums `8, 12, 10` are pairwise distinct) and strictly precedes `(3,1,0,2)` in
the iteration order — so the returned quadruple is not the first failing one. -/
theorem claim_C2_counterexample :
    Square (liftQ cexC2mat) = true ∧ Symmetric (liftQ cexC2mat) = true ∧
    Additive cexC2mat = (false, 3, 1, 0, 2) ∧
    ¬ fourPoint cexC2mat 2 1 0 3 ∧
    (addTuples cexC2mat).indexOf ((2 : ℕ), (1 : ℕ), (0 : ℕ), (3 : ℕ)) <
      (addTuples cexC2mat).indexOf ((3 : ℕ), (1 : ℕ), (0 : ℕ), (2 : ℕ)) := by
  refine ⟨by decide, by decide, ?_, ?_, by decide⟩
  · norm_num [Additive, addTuples, addCheck, passCheck, addS1, addS2, addS3,
      getQ, cexC2mat, List.find?, List.range, List.range.loop, List.flatMap]
  · norm_num [fourPoint, twoMaxEq, addS1, addS2, addS3, getQ, cexC2mat]

/-- The additive matrix of the spec's concrete scenario, used as witness. -/
def witC2mat : Mat :=
  [[0, 13, 21, 22], [13, 0, 12, 13], [21, 12, 0, 13], [22, 13, 13, 0]]

/-- C2 witness: on the spec's additive matrix `Additive` succeeds, so the
four-point condition holds, e.g. at the quadruple `(3, 2, 1, 0)`. -/
theorem claim_C2_witness : fourPoint witC2mat 3 2 1 0 :=
  (claim_C2_amended witC2mat (by decide) (by decide)).1.mp
    (by norm_num [Additive, addTuples, addCheck, passCheck, addS1, addS2,
      addS3, getQ, witC2mat, List.find?, List.range, List.range.loop,
      List.flatMap])
    3 2 1 0 (by decide) (by decide) (by decide) (by decide)

/-! ## Claim C3: shape of the NeighborJoin output -/

/-- An `n × n` rational matrix. -/
def SquareQ (dm : Mat) (n : ℕ) : Prop :=
  dm.length = n ∧ ∀ r ∈ dm, r.length = n

theorem getQ_eq_getElem {dm : Mat} {i j : ℕ} (hi : i < dm.length)
    (hj : j < (dm.getD i []).length) :
    getQ dm i j = (dm.getD i []).get ⟨j, hj⟩ := by
  unfold getQ
  exact List.getD_eq_getElem (dm.getD i []) 0 hj

theorem getD_set_self {α : Type _} (l : List α) (i : ℕ) (x d : α) :
    (l.set i x).getD i d = if i < l.length then x else d := by
  by_cases h : i < l.length
  · rw [if_pos h, List.getD_eq_getElem?_getD, List.getElem?_set_self h,
      Option.getD_some]
  · rw [if_neg h, List.getD_eq_getElem?_getD,
      List.getElem?_eq_none (by rw [List.length_set]; omega),
      Option.getD_none]

theorem getD_set_ne {α : Type _} (l : List α) {i a : ℕ} (x d : α)
    (h : a ≠ i) : (l.set i x).getD a d = l.getD a d := by
  rw [List.getD_eq_getElem?_getD, List.getElem?_set_ne (Ne.symm h),
    ← List.getD_eq_getElem?_getD]

theorem length_setQ (dm : Mat) (i j : ℕ) (v : ℚ) :
    (setQ dm i j v).length = dm.length := by
  simp [setQ]

theorem squareQ_setQ {dm : Mat} {n : ℕ} (h : SquareQ dm n) (i j : ℕ) (v : ℚ) :
    SquareQ (setQ dm i j v) n := by
  obtain ⟨hlen, hrows⟩ := h
  by_cases hi : i < dm.length
  · refine ⟨by rw [length_setQ]; exact hlen, ?_⟩
    intro r hr
    rcases List.mem_or_eq_of_mem_set hr with hmem | heq
    · exact hrows r hmem
    · subst heq
      rw [List.length_set]
      have hmem : dm.getD i [] ∈ dm := by
        rw [List.getD_eq_getElem dm [] hi]
        exact List.getElem_mem hi
      exact hrows _ hmem
  · unfold setQ
    rw [List.set_eq_of_length_le (by omega)]
    exact ⟨hlen, hrows⟩

theorem getQ_setQ_same {dm : Mat} {i j : ℕ} (v : ℚ) (hi : i < dm.length)
    (hj : j < (dm.getD i []).length) :
    getQ (setQ dm i j v) i j = v := by
  unfold getQ setQ
  rw [getD_set_self, if_pos hi, getD_set_self, if_pos hj]

theorem getQ_setQ_other {dm : Mat} {i j a b : ℕ} (v : ℚ)
    (h : a ≠ i ∨ b ≠ j) :
    getQ (setQ dm i j v) a b = getQ dm a b := by
  unfold getQ setQ
  by_cases ha : a = i
  · subst ha
    have hb : b ≠ j := by tauto
    rw [getD_set_self]
    by_cases hlt : a < dm.length
    · rw [if_pos hlt, getD_set_ne _ _ _ hb]
    · rw [if_neg hlt]
      rw [List.getD_eq_getElem?_getD dm,
        List.getElem?_eq_none (by omega), Option.getD_none]
  · rw [getD_set_ne _ _ _ ha]

/-- Zero diagonal of an `n × n` rational matrix. -/
def ZeroDiagQ (dm : Mat) (n : ℕ) : Prop := ∀ c, c < n → getQ dm c c = 0

/-- The value written by the NeighborJoin update at column `j`, computed
from the matrix as it stands when the update loop starts. -/
def njVal (orig : Mat) (d1 d2 j : ℕ) : ℚ :=
  (getQ orig d1 j + getQ orig d2 j - getQ orig d2 d1) / 2

theorem squareQ_getD_length {dm : Mat} {n : ℕ} (hsq : SquareQ dm n) {i : ℕ}
    (hi : i < n) : (dm.getD i []).length = n := by
  obtain ⟨hlen, hrows⟩ := hsq
  have hi' : i < dm.length := by omega
  have : dm.getD i [] ∈ dm := by
    rw [List.getD_eq_getElem dm [] hi']
    exact List.getElem_mem hi'
  exact hrows _ this

theorem getQ_setQ_same' {dm : Mat} {n i j : ℕ} (v : ℚ) (hsq : SquareQ dm n)
    (hi : i < n) (hj : j < n) : getQ (setQ dm i j v) i j = v :=
  getQ_setQ_same v (by rw [hsq.1]; exact hi)
    (by rw [squareQ_getD_length hsq hi]; exact hj)

set_option maxHeartbeats 1000000 in
theorem njUpdate_go (orig : Mat) (n d1 d2 : ℕ) (hsq0 : SquareQ orig n)
    (hd1 : d1 < n) (hd2 : d2 < n) (hne : d1 ≠ d2)
    (hz : getQ orig d1 d1 = 0) :
    ∀ (L P : List ℕ) (dm' : Mat),
      (∀ j ∈ L, j < n) → L.Nodup → (∀ j ∈ L, j ∉ P) →
      (∀ L1 L2, L = L1 ++ d1 :: L2 → d2 ∉ P ∧ d2 ∉ L1) →
      SquareQ dm' n →
      (∀ a b : ℕ, getQ dm' a b =
        if a = d1 ∧ b ∈ P then njVal orig d1 d2 b
        else if b = d1 ∧ a ∈ P then njVal orig d1 d2 a
        else getQ orig a b) →
      ∃ dmu, L.foldl (fun acc j =>
          acc.bind fun dm'' =>
            let mn := (getQ dm'' d1 j + getQ dm'' d2 j -
              getQ orig d2 d1) / 2
            if j = d1 ∧ mn ≠ 0 then none
            else some (setQ (setQ dm'' d1 j mn) j d1 mn)) (some dm') =
          some dmu ∧
        SquareQ dmu n ∧
        (∀ a b : ℕ, getQ dmu a b =
          if a = d1 ∧ (b ∈ P ∨ b ∈ L) then njVal orig d1 d2 b
          else if b = d1 ∧ (a ∈ P ∨ a ∈ L) then njVal orig d1 d2 a
          else getQ orig a b) := by
  intro L
  induction L with
  | nil =>
    intro P dm' hLn hnd hLP hord hsq hchar
    refine ⟨dm', rfl, hsq, ?_⟩
    intro a b
    rw [hchar a b]
    simp
  | cons j L' ih =>
    intro P dm' hLn hnd hLP hord hsq hchar
    have hjn : j < n := hLn j (List.mem_cons_self j L')
    have hjP : j ∉ P := hLP j (List.mem_cons_self j L')
    -- the two reads see the original values
    have hm1 : getQ dm' d1 j = getQ orig d1 j := by
      rw [hchar d1 j]
      rw [if_neg (fun h => hjP h.2)]
      rw [if_neg (by rintro ⟨h1, h2⟩; rw [h1] at hjP; exact hjP h2)]
    have hm2 : getQ dm' d2 j = getQ orig d2 j := by
      rw [hchar d2 j]
      rw [if_neg (fun h => hne h.1.symm)]
      rw [if_neg (by
        rintro ⟨h1, h2⟩
        have hd2P : d2 ∉ P := (hord [] L' (by rw [h1]; rfl)).1
        exact hd2P h2)]
    have hmn : (getQ dm' d1 j + getQ dm' d2 j - getQ orig d2 d1) / 2 =
        njVal orig d1 d2 j := by
      rw [hm1, hm2]
      rfl
    -- the panic guard never fires
    have hguard : ¬(j = d1 ∧
        (getQ dm' d1 j + getQ dm' d2 j - getQ orig d2 d1) / 2 ≠ 0) := by
      rintro ⟨h1, hne0⟩
      apply hne0
      rw [hmn, h1]
      unfold njVal
      rw [hz]
      ring
    rw [List.foldl_cons]
    have hred : ((some dm').bind fun dm'' =>
        let mn := (getQ dm'' d1 j + getQ dm'' d2 j - getQ orig d2 d1) / 2
        if j = d1 ∧ mn ≠ 0 then none
        else some (setQ (setQ dm'' d1 j mn) j d1 mn)) =
        some (setQ (setQ dm' d1 j (njVal orig d1 d2 j)) j d1
          (njVal orig d1 d2 j)) := by
      show (let mn := (getQ dm' d1 j + getQ dm' d2 j - getQ orig d2 d1) / 2
        if j = d1 ∧ mn ≠ 0 then none
        else some (setQ (setQ dm' d1 j mn) j d1 mn)) = _
      show (if j = d1 ∧ (getQ dm' d1 j + getQ dm' d2 j -
          getQ orig d2 d1) / 2 ≠ 0 then none
        else some (setQ (setQ dm' d1 j ((getQ dm' d1 j + getQ dm' d2 j -
          getQ orig d2 d1) / 2)) j d1 ((getQ dm' d1 j + getQ dm' d2 j -
          getQ orig d2 d1) / 2))) = _
      rw [if_neg hguard, hmn]
    rw [hred]
    -- the new matrix satisfies the characterization for j :: P
    have hsq1 : SquareQ (setQ dm' d1 j (njVal orig d1 d2 j)) n :=
      squareQ_setQ hsq d1 j _
    have hsq2 : SquareQ (setQ (setQ dm' d1 j (njVal orig d1 d2 j)) j d1
        (njVal orig d1 d2 j)) n := squareQ_setQ hsq1 j d1 _
    have hchar2 : ∀ a b : ℕ,
        getQ (setQ (setQ dm' d1 j (njVal orig d1 d2 j)) j d1
          (njVal orig d1 d2 j)) a b =
        if a = d1 ∧ b ∈ j :: P then njVal orig d1 d2 b
        else if b = d1 ∧ a ∈ j :: P then njVal orig d1 d2 a
        else getQ orig a b := by
      intro a b
      by_cases h1 : a = j ∧ b = d1
      · rw [h1.1, h1.2]
        rw [getQ_setQ_same' _ hsq1 hjn hd1]
        by_cases hjd : j = d1
        · have hcond : j = d1 ∧ d1 ∈ j :: P := by
            refine ⟨hjd, ?_⟩
            rw [← hjd]
            exact List.mem_cons_self j P
          rw [if_pos hcond, hjd]
        · have hcond : ¬(j = d1 ∧ d1 ∈ j :: P) := fun h => hjd h.1
          rw [if_neg hcond,
            if_pos ⟨rfl, List.mem_cons_self j P⟩]
      · have hstep1 : getQ (setQ (setQ dm' d1 j (njVal orig d1 d2 j)) j d1
            (njVal orig d1 d2 j)) a b =
            getQ (setQ dm' d1 j (njVal orig d1 d2 j)) a b :=
          getQ_setQ_other _ (by tauto)
        rw [hstep1]
        by_cases h2 : a = d1 ∧ b = j
        · rw [h2.1, h2.2]
          rw [getQ_setQ_same' _ hsq hd1 hjn,
            if_pos ⟨rfl, List.mem_cons_self j P⟩]
        · rw [getQ_setQ_other _ (by tauto), hchar a b]
          by_cases hA : a = d1 ∧ b ∈ P
          · have hA' : a = d1 ∧ b ∈ j :: P :=
              ⟨hA.1, List.mem_cons_of_mem j hA.2⟩
            rw [if_pos hA, if_pos hA']
          · have hA' : ¬(a = d1 ∧ b ∈ j :: P) := by
              rintro ⟨ha, hb⟩
              rcases List.mem_cons.mp hb with h' | hb'
              · exact h2 ⟨ha, h'⟩
              · exact hA ⟨ha, hb'⟩
            rw [if_neg hA, if_neg hA']
            by_cases hB : b = d1 ∧ a ∈ P
            · have hB' : b = d1 ∧ a ∈ j :: P :=
                ⟨hB.1, List.mem_cons_of_mem j hB.2⟩
              rw [if_pos hB, if_pos hB']
            · have hB' : ¬(b = d1 ∧ a ∈ j :: P) := by
                rintro ⟨hb, ha⟩
                rcases List.mem_cons.mp ha with h' | ha'
                · exact h1 ⟨h', hb⟩
                · exact hB ⟨hb, ha'⟩
              rw [if_neg hB, if_neg hB']
    -- apply the induction hypothesis with processed set j :: P
    obtain ⟨dmu, hfold, hsqu, hcharu⟩ := ih (j :: P) _
      (fun x hx => hLn x (List.mem_cons_of_mem j hx))
      (List.Nodup.of_cons hnd)
      (fun x hx => by
        intro hmem
        rcases List.mem_cons.mp hmem with h' | hxP
        · rw [h'] at hx
          exact (List.nodup_cons.mp hnd).1 hx
        · exact hLP x (List.mem_cons_of_mem j hx) hxP)
      (fun L1 L2 heq => by
        have hsplit := hord (j :: L1) L2 (by rw [heq]; rfl)
        refine ⟨?_, fun hmem => hsplit.2 (List.mem_cons_of_mem j hmem)⟩
        intro hmem
        rcases List.mem_cons.mp hmem with h' | hP
        · rw [h'] at hsplit
          exact hsplit.2 (List.mem_cons_self j L1)
        · exact hsplit.1 hP)
      hsq2 hchar2
    refine ⟨dmu, hfold, hsqu, ?_⟩
    intro a b
    rw [hcharu a b]
    have e1 : (b ∈ j :: P ∨ b ∈ L') ↔ (b ∈ P ∨ b ∈ j :: L') := by
      simp only [List.mem_cons]
      tauto
    have e2 : (a ∈ j :: P ∨ a ∈ L') ↔ (a ∈ P ∨ a ∈ j :: L') := by
      simp only [List.mem_cons]
      tauto
    by_cases hA : a = d1 ∧ (b ∈ j :: P ∨ b ∈ L')
    · have hA' : a = d1 ∧ (b ∈ P ∨ b ∈ j :: L') := ⟨hA.1, e1.mp hA.2⟩
      rw [if_pos hA, if_pos hA']
    · have hA' : ¬(a = d1 ∧ (b ∈ P ∨ b ∈ j :: L')) :=
        fun h => hA ⟨h.1, e1.mpr h.2⟩
      rw [if_neg hA, if_neg hA']
      by_cases hB : b = d1 ∧ (a ∈ j :: P ∨ a ∈ L')
      · have hB' : b = d1 ∧ (a ∈ P ∨ a ∈ j :: L') := ⟨hB.1, e2.mp hB.2⟩
        rw [if_pos hB, if_pos hB']
      · have hB' : ¬(b = d1 ∧ (a ∈ P ∨ a ∈ j :: L')) :=
          fun h => hB ⟨h.1, e2.mpr h.2⟩
        rw [if_neg hB, if_neg hB']

theorem range_split_lt {n d1 : ℕ} {L1 L2 : List ℕ}
    (h : List.range n = L1 ++ d1 :: L2) : ∀ x ∈ L1, x < d1 := by
  have hlen : n = L1.length + (L2.length + 1) := by
    have := congrArg List.length h
    simpa [List.length_append] using this
  have hL1n : L1.length < n := by omega
  have hd : d1 = L1.length := by
    have h1 : (L1 ++ d1 :: L2)[L1.length]? = some d1 := by
      rw [List.getElem?_append_right (le_refl L1.length)]
      simp
    have h2 : (List.range n)[L1.length]? = some L1.length :=
      List.getElem?_range hL1n
    rw [h, h1] at h2
    exact Option.some.inj h2
  intro x hx
  rcases List.mem_iff_getElem.mp hx with ⟨p, hp, he⟩
  have hx' : (L1 ++ d1 :: L2)[p]? = some x := by
    rw [List.getElem?_append_left hp, List.getElem?_eq_getElem hp]
    exact congrArg some he
  have hpn : p < n := by omega
  have h2 : (List.range n)[p]? = some p := List.getElem?_range hpn
  rw [h, hx'] at h2
  have hxp : x = p := Option.some.inj h2
  omega

theorem njUpdate_spec (dm : Mat) (n d1 d2 : ℕ) (hsq : SquareQ dm n)
    (hd1 : d1 < n) (hd2 : d2 < n) (hlt : d1 < d2)
    (hz : getQ dm d1 d1 = 0) :
    ∃ dmu, njUpdate dm d1 d2 (getQ dm d2 d1) = some dmu ∧ SquareQ dmu n ∧
      (∀ a b : ℕ, getQ dmu a b =
        if a = d1 ∧ b < n then njVal dm d1 d2 b
        else if b = d1 ∧ a < n then njVal dm d1 d2 a
        else getQ dm a b) := by
  have hrl : (dm.getD d1 []).length = n := squareQ_getD_length hsq hd1
  obtain ⟨dmu, hfold, hsq', hchar⟩ := njUpdate_go dm n d1 d2 hsq hd1 hd2
    (Nat.ne_of_lt hlt) hz (List.range n) [] dm
    (fun j hj => List.mem_range.mp hj)
    (List.nodup_range n)
    (fun j _ => List.not_mem_nil j)
    (fun L1 L2 heq => ⟨List.not_mem_nil d2, fun hmem =>
      absurd (range_split_lt heq d2 hmem) (by omega)⟩)
    hsq
    (by intro a b; simp)
  refine ⟨dmu, ?_, hsq', ?_⟩
  · unfold njUpdate
    rw [hrl]
    exact hfold
  · intro a b
    rw [hchar a b]
    simp only [List.not_mem_nil, List.mem_range, false_or]

theorem getQ_erase (dmu : Mat) (d2 a b : ℕ) :
    getQ ((dmu.eraseIdx d2).map (fun r => r.eraseIdx d2)) a b =
      getQ dmu (if a < d2 then a else a + 1) (if b < d2 then b else b + 1) := by
  have key : ∀ (row : List ℚ),
      (row.eraseIdx d2).getD b 0 = row.getD (if b < d2 then b else b + 1) 0 := by
    intro row
    rw [List.getD_eq_getElem?_getD (row.eraseIdx d2), List.getElem?_eraseIdx,
      List.getD_eq_getElem?_getD row]
    by_cases hb : b < d2
    · rw [if_pos hb, if_pos hb]
    · rw [if_neg hb, if_neg hb]
  unfold getQ
  rw [List.getD_eq_getElem?_getD ((dmu.eraseIdx d2).map (fun r => r.eraseIdx d2)) a,
    List.getElem?_map, List.getElem?_eraseIdx,
    List.getD_eq_getElem?_getD dmu]
  by_cases ha : a < d2
  · rw [if_pos ha, if_pos ha]
    rcases dmu[a]? with _ | row
    · simp [List.getD_eq_getElem?_getD]
    · exact key row
  · rw [if_neg ha, if_neg ha]
    rcases dmu[a + 1]? with _ | row
    · simp [List.getD_eq_getElem?_getD]
    · exact key row

theorem squareQ_erase {dmu : Mat} {n d2 : ℕ} (hsq : SquareQ dmu n)
    (hd2 : d2 < n) :
    SquareQ ((dmu.eraseIdx d2).map (fun r => r.eraseIdx d2)) (n - 1) := by
  obtain ⟨hlen, hrows⟩ := hsq
  constructor
  · rw [List.length_map, List.length_eraseIdx, hlen, if_pos hd2]
  · intro r hr
    rcases List.mem_map.mp hr with ⟨r', hr', rfl⟩
    have hr'' : r' ∈ dmu := (List.eraseIdx_sublist dmu d2).subset hr'
    rw [List.length_eraseIdx, hrows r' hr'', if_pos hd2]

theorem zeroDiagQ_erase {dmu : Mat} {n d2 : ℕ} (hzd : ZeroDiagQ dmu n)
    (hd2 : d2 < n) :
    ZeroDiagQ ((dmu.eraseIdx d2).map (fun r => r.eraseIdx d2)) (n - 1) := by
  intro c hc
  rw [getQ_erase]
  by_cases h : c < d2
  · rw [if_pos h]
    exact hzd c (by omega)
  · rw [if_neg h]
    exact hzd (c + 1) (by omega)

theorem nodup_set_fresh {l : List ℕ} {a : ℕ} (hnd : l.Nodup) (ha : a ∉ l) :
    ∀ i, (l.set i a).Nodup := by
  induction l with
  | nil => intro i; simp
  | cons x t ih =>
    intro i
    rcases i with _ | i'
    · rw [List.set_cons_zero]
      rw [List.nodup_cons] at *
      exact ⟨fun hat => ha (List.mem_cons_of_mem x hat), hnd.2⟩
    · rw [List.set_cons_succ]
      rw [List.nodup_cons] at *
      refine ⟨?_, ih hnd.2 (fun h' => ha (List.mem_cons_of_mem x h')) i'⟩
      intro hx
      rcases List.mem_or_eq_of_mem_set hx with hmem | heq
      · exact hnd.1 hmem
      · exact ha (heq ▸ List.mem_cons_self x t)

theorem mem_set_erase {nx : List ℕ} {d1 d2 m u : ℕ}
    (hu : u ∈ (nx.set d1 m).eraseIdx d2) :
    u = m ∨ ∃ q, q ≠ d1 ∧ q ≠ d2 ∧ nx[q]? = some u := by
  rcases List.mem_iff_getElem.mp hu with ⟨p, hp, he⟩
  have he' : ((nx.set d1 m).eraseIdx d2)[p]? = some u := by
    rw [List.getElem?_eq_getElem hp]
    exact congrArg some he
  rw [List.getElem?_eraseIdx] at he'
  by_cases hpd : p < d2
  · rw [if_pos hpd] at he'
    by_cases hp1 : p = d1
    · subst hp1
      left
      by_cases hpl : p < nx.length
      · rw [List.getElem?_set_self hpl] at he'
        exact (Option.some.inj he').symm
      · rw [List.getElem?_eq_none (by rw [List.length_set]; omega)] at he'
        exact absurd he' (by simp)
    · rw [List.getElem?_set_ne (fun h => hp1 h.symm)] at he'
      exact Or.inr ⟨p, hp1, by omega, he'⟩
  · rw [if_neg hpd] at he'
    by_cases hp1 : p + 1 = d1
    · rw [← hp1] at he'
      by_cases hpl : p + 1 < nx.length
      · rw [List.getElem?_set_self hpl] at he'
        exact Or.inl (Option.some.inj he').symm
      · rw [List.getElem?_eq_none (by rw [List.length_set]; omega)] at he'
        exact absurd he' (by simp)
    · rw [List.getElem?_set_ne (fun h => hp1 h.symm)] at he'
      exact Or.inr ⟨p + 1, hp1, by omega, he'⟩

theorem length_adjAppend (t : List (List (ℕ × ℕ))) (u : ℕ) (h : ℕ × ℕ) :
    (adjAppend t u h).length = t.length := by
  simp [adjAppend]

theorem adjAppend_getD_same {t : List (List (ℕ × ℕ))} {u : ℕ} (h : ℕ × ℕ)
    (hu : u < t.length) :
    (adjAppend t u h).getD u [] = t.getD u [] ++ [h] := by
  unfold adjAppend
  rw [getD_set_self, if_pos hu]

theorem adjAppend_getD_other {t : List (List (ℕ × ℕ))} {u w : ℕ} (h : ℕ × ℕ)
    (hne : w ≠ u) : (adjAppend t u h).getD w [] = t.getD w [] :=
  getD_set_ne t _ [] hne

theorem getD_nilmap (m u : ℕ) :
    (((List.range m).map (fun _ => ([] : List (ℕ × ℕ))))).getD u [] = [] := by
  rw [List.getD_eq_getElem?_getD, List.getElem?_map]
  rcases (List.range m)[u]? with _ | x <;> rfl

theorem foldl_invariant_mem {α σ : Type _} (P : σ → Prop) (f : σ → α → σ)
    (l : List α) (h : ∀ s a, a ∈ l → P s → P (f s a)) :
    ∀ s, P s → P (l.foldl f s) := by
  induction l with
  | nil => intro s hs; exact hs
  | cons b t ih =>
    intro s hs
    exact ih (fun s' a ha hP => h s' a (List.mem_cons_of_mem b ha) hP)
      (f s b) (h s b (List.mem_cons_self b t) hs)



/-- Adjacency-list degree of node `u` (number of half-edges at `u`). -/
def deg (t : List (List (ℕ × ℕ))) (u : ℕ) : ℕ := (t.getD u []).length

theorem njScan_good (dm : Mat) (td : List ℚ) :
    ∀ (l : List ℕ), (∀ i ∈ l, i < dm.length) →
    ∀ (acc : Option ℚ × Int × Int),
      (∃ a b : ℕ, a < b ∧ b < dm.length ∧ acc.2 = ((a : Int), (b : Int))) →
      ∃ a b : ℕ, a < b ∧ b < dm.length ∧
        (l.foldl (fun acc i => (List.range i).foldl
          (fun (acc : Option ℚ × Int × Int) j =>
            if ltInf (((dm.length - 2 : ℕ) : ℚ) * getQ dm i j -
                td.getD i 0 - td.getD j 0) acc.1
            then (some (((dm.length - 2 : ℕ) : ℚ) * getQ dm i j -
                td.getD i 0 - td.getD j 0), (j : Int), (i : Int))
            else acc)
          acc) acc).2 = ((a : Int), (b : Int)) := by
  intro l
  induction l with
  | nil => intro _ acc h; exact h
  | cons i l' ih =>
    intro hl acc hacc
    rw [List.foldl_cons]
    apply ih (fun x hx => hl x (List.mem_cons_of_mem i hx))
    apply foldl_invariant_mem
      (fun s : Option ℚ × Int × Int =>
        ∃ a b : ℕ, a < b ∧ b < dm.length ∧ s.2 = ((a : Int), (b : Int)))
      _ (List.range i) ?_ acc hacc
    intro s j hj hs
    by_cases hlt : ltInf (((dm.length - 2 : ℕ) : ℚ) * getQ dm i j -
        td.getD i 0 - td.getD j 0) s.1 = true
    · rw [if_pos hlt]
      exact ⟨j, i, List.mem_range.mp hj, hl i (List.mem_cons_self i l'), rfl⟩
    · rw [if_neg hlt]
      exact hs

theorem njClosest_found (dm : Mat) (td : List ℚ) (h2 : 2 ≤ dm.length) :
    ∃ a b : ℕ, a < b ∧ b < dm.length ∧
      njClosest dm td = ((a : Int), (b : Int)) := by
  have hsplit : List.range dm.length =
      List.range 2 ++ (List.range dm.length).drop 2 := by
    conv_lhs => rw [← List.take_append_drop 2 (List.range dm.length)]
    rw [List.take_range, Nat.min_eq_left h2]
  obtain ⟨a, b, hab, hbs, hfin⟩ := njScan_good dm td
    ((List.range dm.length).drop 2)
    (fun i hi => List.mem_range.mp (List.drop_subset 2 (List.range dm.length) hi))
    ((List.range 2).foldl (fun acc i => (List.range i).foldl
        (fun (acc : Option ℚ × Int × Int) j =>
          if ltInf (((dm.length - 2 : ℕ) : ℚ) * getQ dm i j -
              td.getD i 0 - td.getD j 0) acc.1
          then (some (((dm.length - 2 : ℕ) : ℚ) * getQ dm i j -
              td.getD i 0 - td.getD j 0), (j : Int), (i : Int))
          else acc)
        acc) ((none : Option ℚ), (-1 : Int), (-1 : Int)))
    ⟨0, 1, by omega, by omega, rfl⟩
  refine ⟨a, b, hab, hbs, ?_⟩
  unfold njClosest
  rw [hsplit, List.foldl_append]
  exact hfin

theorem njRec_step (fuel : ℕ) (dm : Mat) (nx : List ℕ) (m a b : ℕ)
    (hbase : ¬ dm.length = 2)
    (hcl : njClosest dm (dm.map fun dk => dk.sum) = ((a : Int), (b : Int)))
    (dmu : Mat) (hupd : njUpdate dm a b (getQ dm b a) = some dmu)
    (treeR : List (List (ℕ × ℕ))) (wtR : List ℚ)
    (hrec : njRec fuel ((dmu.eraseIdx b).map fun di => di.eraseIdx b)
      ((nx.set a m).eraseIdx b) (m + 1) = some (treeR, wtR)) :
    njRec (fuel + 1) dm nx m = some
      (adjAppend (adjAppend (adjAppend (adjAppend treeR m
         (nx.getD a 0, wtR.length)) m (nx.getD b 0, wtR.length + 1))
         (nx.getD a 0) (m, wtR.length)) (nx.getD b 0) (m, wtR.length + 1),
       wtR ++ [(getQ dm b a - ((dm.map fun dk => dk.sum).getD b 0 -
           (dm.map fun dk => dk.sum).getD a 0) / ((dm.length - 2 : ℕ) : ℚ)) / 2,
         (getQ dm b a + ((dm.map fun dk => dk.sum).getD b 0 -
           (dm.map fun dk => dk.sum).getD a 0) / ((dm.length - 2 : ℕ) : ℚ)) / 2]) := by
  have hng : ¬(((a : Int), (b : Int)).1 < 0 ∨ ((a : Int), (b : Int)).2 < 0) := by
    simp
  simp only [njRec]
  rw [if_neg hbase, hcl, if_neg hng]
  simp only [Int.toNat_natCast, hupd, hrec]

theorem nodup_index_inj {l : List ℕ} (hnd : l.Nodup) {p q v : ℕ}
    (hp : l[p]? = some v) (hq : l[q]? = some v) : p = q := by
  have hpl : p < l.length := by
    by_contra h
    rw [List.getElem?_eq_none (by omega)] at hp
    exact absurd hp (by simp)
  have hql : q < l.length := by
    by_contra h
    rw [List.getElem?_eq_none (by omega)] at hq
    exact absurd hq (by simp)
  rw [List.getElem?_eq_getElem hpl] at hp
  rw [List.getElem?_eq_getElem hql] at hq
  exact (List.Nodup.getElem_inj_iff hnd).mp
    (Option.some.inj (hp.trans hq.symm))

theorem mem_set_erase_of {nx : List ℕ} {d1 d2 q v m : ℕ}
    (hq : nx[q]? = some v) (hqa : q ≠ d1) (hqb : q ≠ d2) :
    v ∈ (nx.set d1 m).eraseIdx d2 := by
  by_cases hlt : q < d2
  · exact List.getElem?_mem (show ((nx.set d1 m).eraseIdx d2)[q]? = some v by
      rw [List.getElem?_eraseIdx, if_pos hlt,
        List.getElem?_set_ne (fun h => hqa h.symm)]
      exact hq)
  · exact List.getElem?_mem
      (show ((nx.set d1 m).eraseIdx d2)[q - 1]? = some v by
      rw [List.getElem?_eraseIdx, if_neg (by omega)]
      have hq1 : q - 1 + 1 = q := by omega
      rw [hq1, List.getElem?_set_ne (fun h => hqa h.symm)]
      exact hq)

theorem m_mem_set_erase {nx : List ℕ} {d1 d2 m : ℕ} (hd1 : d1 < nx.length)
    (hlt : d1 < d2) : m ∈ (nx.set d1 m).eraseIdx d2 :=
  List.getElem?_mem (show ((nx.set d1 m).eraseIdx d2)[d1]? = some m by
    rw [List.getElem?_eraseIdx, if_pos hlt, List.getElem?_set_self hd1])

theorem deg_adjAppend4 {treeR T : List (List (ℕ × ℕ))} {m n1 n2 wx1 wx2 : ℕ}
    (hT : T = adjAppend (adjAppend (adjAppend (adjAppend treeR m (n1, wx1)) m
      (n2, wx2)) n1 (m, wx1)) n2 (m, wx2))
    (hm : m < treeR.length) (hn1 : n1 < treeR.length) (hn2 : n2 < treeR.length)
    (h12 : n1 ≠ n2) (h1m : n1 ≠ m) (h2m : n2 ≠ m) :
    T.length = treeR.length ∧ deg T m = deg treeR m + 2 ∧
    deg T n1 = deg treeR n1 + 1 ∧ deg T n2 = deg treeR n2 + 1 ∧
    ∀ u, u ≠ m → u ≠ n1 → u ≠ n2 → deg T u = deg treeR u := by
  subst hT
  have l1 : (adjAppend treeR m (n1, wx1)).length = treeR.length :=
    length_adjAppend treeR m (n1, wx1)
  have l2 : (adjAppend (adjAppend treeR m (n1, wx1)) m (n2, wx2)).length =
      treeR.length := by rw [length_adjAppend, l1]
  have l3 : (adjAppend (adjAppend (adjAppend treeR m (n1, wx1)) m (n2, wx2))
      n1 (m, wx1)).length = treeR.length := by rw [length_adjAppend, l2]
  refine ⟨?_, ?_, ?_, ?_, ?_⟩
  · rw [length_adjAppend, l3]
  · unfold deg
    rw [adjAppend_getD_other _ (Ne.symm h2m), adjAppend_getD_other _ (Ne.symm h1m),
      adjAppend_getD_same _ (by rw [l1]; exact hm),
      adjAppend_getD_same _ hm, List.length_append, List.length_append]
    rfl
  · unfold deg
    rw [adjAppend_getD_other _ h12,
      adjAppend_getD_same _ (by rw [l2]; exact hn1),
      adjAppend_getD_other _ h1m, adjAppend_getD_other _ h1m,
      List.length_append]
    rfl
  · unfold deg
    rw [adjAppend_getD_same _ (by rw [l3]; exact hn2),
      adjAppend_getD_other _ (Ne.symm h12),
      adjAppend_getD_other _ h2m, adjAppend_getD_other _ h2m,
      List.length_append]
    rfl
  · intro u hum h1u h2u
    unfold deg
    rw [adjAppend_getD_other _ h2u, adjAppend_getD_other _ h1u,
      adjAppend_getD_other _ hum, adjAppend_getD_other _ hum]

theorem njRec_spec : ∀ (fuel s : ℕ) (dm : Mat) (nx : List ℕ) (m : ℕ),
    2 ≤ s → s ≤ fuel → SquareQ dm s → ZeroDiagQ dm s →
    nx.length = s → nx.Nodup → (∀ u ∈ nx, u < m) →
    ∃ tree wt, njRec fuel dm nx m = some (tree, wt) ∧
      tree.length = m + (s - 2) ∧ wt.length = 2 * s - 3 ∧
      (∀ u ∈ nx, deg tree u = 1) ∧
      (∀ u, m ≤ u → u < m + (s - 2) → deg tree u = 3) ∧
      (∀ u, u < m → u ∉ nx → deg tree u = 0) := by
  intro fuel
  induction fuel with
  | zero =>
    intro s dm nx m h2 hsf
    exact absurd hsf (by omega)
  | succ fuel ih =>
    intro s dm nx m h2 hsf hsq hzd hnxl hnd hbound
    have hdml : dm.length = s := hsq.1
    by_cases hbase : dm.length = 2
    · have hs2 : s = 2 := by omega
      subst hs2
      rcases nx with _ | ⟨x, nx'⟩
      · exact absurd hnxl (by simp)
      rcases nx' with _ | ⟨y, nx''⟩
      · exact absurd hnxl (by simp)
      have hnil : nx'' = [] := by
        have h0 : nx''.length = 0 := by simpa using hnxl
        exact List.eq_nil_of_length_eq_zero h0
      subst hnil
      have hxy : x ≠ y := by
        rw [List.nodup_cons] at hnd
        exact fun h => hnd.1 (h ▸ List.mem_cons_self y [])
      have hxm : x < m := hbound x (List.mem_cons_self x [y])
      have hym : y < m :=
        hbound y (List.mem_cons_of_mem x (List.mem_cons_self y []))
      refine ⟨(((List.range m).map fun _ => ([] : List (ℕ × ℕ))).set x
        [(y, 0)]).set y [(x, 0)], [getQ dm 0 1], ?_, ?_, ?_, ?_, ?_, ?_⟩
      · simp only [njRec]
        rw [if_pos hbase]
        rfl
      · simp
      · rfl
      · intro u hu
        rcases List.mem_cons.mp hu with rfl | hu'
        · unfold deg
          rw [getD_set_ne _ _ _ hxy, getD_set_self,
            if_pos (by simpa using hxm)]
          rfl
        · rcases List.mem_cons.mp hu' with rfl | hu''
          · unfold deg
            rw [getD_set_self, if_pos (by simpa using hym)]
            rfl
          · exact absurd hu'' (List.not_mem_nil u)
      · intro u h1 h2'
        exact absurd h2' (by omega)
      · intro u hum hun
        have hux : u ≠ x := fun h => hun (by
          rw [h]
          exact List.mem_cons_self x [y])
        have huy : u ≠ y := fun h => hun (by
          rw [h]
          exact List.mem_cons_of_mem x (List.mem_cons_self y []))
        unfold deg
        rw [getD_set_ne _ _ _ huy, getD_set_ne _ _ _ hux, getD_nilmap]
        rfl
    · have hs3 : 3 ≤ s := by omega
      obtain ⟨a, b, hab, hbs', hcl⟩ :=
        njClosest_found dm (dm.map fun dk => dk.sum) (by omega)
      have has : a < s := by omega
      have hbs : b < s := by omega
      obtain ⟨dmu, hupd, hsqu, hchar⟩ := njUpdate_spec dm s a b hsq
        (by omega) (by omega) hab (hzd a has)
      have hsqr : SquareQ ((dmu.eraseIdx b).map fun r => r.eraseIdx b)
          (s - 1) := squareQ_erase hsqu (by omega)
      have hzdu : ZeroDiagQ dmu s := by
        intro c hc
        rw [hchar c c]
        by_cases hca : c = a
        · rw [if_pos ⟨hca, hc⟩]
          unfold njVal
          rw [hca, hzd a has]
          ring
        · rw [if_neg (fun h => hca h.1), if_neg (fun h => hca h.1)]
          exact hzd c hc
      have hzdr : ZeroDiagQ ((dmu.eraseIdx b).map fun r => r.eraseIdx b)
          (s - 1) := zeroDiagQ_erase hzdu (by omega)
      have hnxrl : ((nx.set a m).eraseIdx b).length = s - 1 := by
        rw [List.length_eraseIdx, List.length_set, hnxl, if_pos hbs]
      have hmnotin : m ∉ nx := fun h => absurd (hbound m h) (by omega)
      have hnxrnd : ((nx.set a m).eraseIdx b).Nodup :=
        (List.eraseIdx_sublist _ b).nodup (nodup_set_fresh hnd hmnotin a)
      have hboundr : ∀ u ∈ (nx.set a m).eraseIdx b, u < m + 1 := by
        intro u hu
        rcases mem_set_erase hu with rfl | ⟨q, _, _, hq⟩
        · omega
        · have := hbound u (List.getElem?_mem hq)
          omega
      obtain ⟨treeR, wtR, hrec, htl, hwl, hdnx, hdint, hdout⟩ :=
        ih (s - 1) ((dmu.eraseIdx b).map fun r => r.eraseIdx b)
          ((nx.set a m).eraseIdx b) (m + 1) (by omega) (by omega)
          hsqr hzdr hnxrl hnxrnd hboundr
      have hstep := njRec_step fuel dm nx m a b hbase hcl dmu hupd treeR wtR hrec
      have ha' : a < nx.length := by omega
      have hb' : b < nx.length := by omega
      have hga : nx[a]? = some (nx.getD a 0) := by
        rw [List.getElem?_eq_getElem ha', List.getD_eq_getElem nx 0 ha']
      have hgb : nx[b]? = some (nx.getD b 0) := by
        rw [List.getElem?_eq_getElem hb', List.getD_eq_getElem nx 0 hb']
      have hn1mem : nx.getD a 0 ∈ nx := List.getElem?_mem hga
      have hn2mem : nx.getD b 0 ∈ nx := List.getElem?_mem hgb
      have hn1m : nx.getD a 0 < m := hbound _ hn1mem
      have hn2m : nx.getD b 0 < m := hbound _ hn2mem
      have h12 : nx.getD a 0 ≠ nx.getD b 0 := by
        intro h
        have hq := nodup_index_inj hnd hga (by rw [h]; exact hgb)
        omega
      have hn1nr : nx.getD a 0 ∉ (nx.set a m).eraseIdx b := by
        intro hmem
        rcases mem_set_erase hmem with heq | ⟨q, hqa, hqb, hq⟩
        · omega
        · exact hqa (nodup_index_inj hnd hq hga)
      have hn2nr : nx.getD b 0 ∉ (nx.set a m).eraseIdx b := by
        intro hmem
        rcases mem_set_erase hmem with heq | ⟨q, hqa, hqb, hq⟩
        · omega
        · exact hqb (nodup_index_inj hnd hq hgb)
      have hmr : m ∈ (nx.set a m).eraseIdx b := m_mem_set_erase ha' hab
      have hmT : m < treeR.length := by omega
      obtain ⟨hTlen, hTm, hTn1, hTn2, hTother⟩ :=
        @deg_adjAppend4 treeR _ m (nx.getD a 0) (nx.getD b 0) wtR.length
          (wtR.length + 1) rfl hmT (by omega) (by omega) h12
          (by omega) (by omega)
      refine ⟨_, _, hstep, ?_, ?_, ?_, ?_, ?_⟩
      · rw [hTlen, htl]
        omega
      · rw [List.length_append, hwl]
        show 2 * (s - 1) - 3 + 2 = 2 * s - 3
        omega
      · intro u hu
        by_cases hu1 : u = nx.getD a 0
        · rw [hu1, hTn1, hdout _ (by omega) hn1nr]
        · by_cases hu2 : u = nx.getD b 0
          · rw [hu2, hTn2, hdout _ (by omega) hn2nr]
          · have hum : u ≠ m := by
              have := hbound u hu
              omega
            rw [hTother u hum hu1 hu2]
            apply hdnx
            rcases List.mem_iff_getElem.mp hu with ⟨q, hql, hqe⟩
            have hq' : nx[q]? = some u := by
              rw [List.getElem?_eq_getElem hql]
              exact congrArg some hqe
            have hqa : q ≠ a := by
              intro h
              rw [h] at hq'
              exact hu1 (Option.some.inj (hq'.symm.trans hga))
            have hqb : q ≠ b := by
              intro h
              rw [h] at hq'
              exact hu2 (Option.some.inj (hq'.symm.trans hgb))
            exact mem_set_erase_of hq' hqa hqb
      · intro u hmu hus
        by_cases hum : u = m
        · rw [hum, hTm, hdnx m hmr]
        · rw [hTother u hum (by omega) (by omega)]
          exact hdint u (by omega) (by omega)
      · intro u hum hun
        have hu1 : u ≠ nx.getD a 0 := fun h => hun (by
          rw [h]
          exact hn1mem)
        have hu2 : u ≠ nx.getD b 0 := fun h => hun (by
          rw [h]
          exact hn2mem)
        rw [hTother u (by omega) hu1 hu2]
        apply hdout u (by omega)
        intro hmem
        rcases mem_set_erase hmem with heq | ⟨q, hqa, hqb, hq⟩
        · omega
        · exact hun (List.getElem?_mem hq)



theorem validate_none_parts {d : FMat} (h : Validate d = none) :
    Square d = true ∧ NonNegative d = true ∧ Symmetric d = true ∧
      ZeroDiagonal d = true := by
  unfold Validate at h
  cases hsq : Square d with
  | false => rw [hsq] at h; simp at h
  | true =>
  rw [hsq] at h
  simp only [Bool.not_true, Bool.false_eq_true, if_false] at h
  cases hnn : NonNegative d with
  | false => rw [hnn] at h; simp at h
  | true =>
  rw [hnn] at h
  simp only [Bool.not_true, Bool.false_eq_true, if_false] at h
  cases hsy : Symmetric d with
  | false => rw [hsy] at h; simp at h
  | true =>
  rw [hsy] at h
  simp only [Bool.not_true, Bool.false_eq_true, if_false] at h
  cases hzd : ZeroDiagonal d with
  | false => rw [hzd] at h; simp at h
  | true => exact ⟨rfl, rfl, rfl, rfl⟩

theorem zeroDiagonal_specQ (d : Mat) (hsq : Square (liftQ d) = true)
    (h : ZeroDiagonal (liftQ d) = true) :
    ∀ c, c < d.length → getQ d c c = 0 := by
  intro c hc
  unfold ZeroDiagonal at h
  rw [List.all_eq_true] at h
  have hc' : c < (liftQ d).length := by rw [liftQ_length]; exact hc
  have hrowF : (liftQ d)[c]? = some ((d.getD c []).map F.val) := by
    rw [List.getElem?_eq_getElem hc']
    have he : (liftQ d)[c] = (liftQ d).getD c [] :=
      (List.getD_eq_getElem (liftQ d) [] hc').symm
    rw [he, liftQ_getD]
  have hmem : (c, (d.getD c []).map F.val) ∈ (liftQ d).enum :=
    List.mk_mem_enum_iff_getElem?.mpr hrowF
  have hb := h _ hmem
  have hlen : c < (d.getD c []).length := by
    rw [square_spec d hsq c hc]; exact hc
  have hget : ((d.getD c []).map F.val).getD c F.nan = F.val (getQ d c c) := by
    have hlen' : c < ((d.getD c []).map F.val).length := by simpa using hlen
    rw [List.getD_eq_getElem _ _ hlen', List.getElem_map]
    unfold getQ
    rw [List.getD_eq_getElem _ _ hlen]
  rw [show ((c, (d.getD c []).map F.val) : ℕ × List F).2 =
      (d.getD c []).map F.val from rfl,
    show ((c, (d.getD c []).map F.val) : ℕ × List F).1 = c from rfl,
    hget] at hb
  simpa [F.beq] using hb

theorem squareQ_of_validate {d : Mat} (hsq : Square (liftQ d) = true) :
    SquareQ d d.length := by
  refine ⟨rfl, ?_⟩
  intro r hr
  rcases List.mem_iff_getElem.mp hr with ⟨i, hi, he⟩
  have hs := square_spec d hsq i hi
  rw [List.getD_eq_getElem d [] hi] at hs
  rw [← he]
  exact hs

theorem Clone_eq (d : Mat) : Clone d = d := by
  simp [Clone]

/-- Claim C3 (amended): for every valid distance matrix `d` with `n ≥ 3`
rows, `NeighborJoin d` succeeds and returns an adjacency list over `2n-2`
nodes carrying exactly `2n-3` edge weights — the edge count of a fully
resolved binary unrooted tree on `n` leaves is `2n-3`, not `2n-2` — in which
every leaf node (`id < n`) has degree 1 and every internal node
(`id ≥ n`, all ids below `2n-2`) has degree 3. -/
theorem claim_C3_amended (d : Mat) (hval : Validate (liftQ d) = none)
    (h3 : 3 ≤ d.length) :
    ∃ tree wt, NeighborJoin d = some (tree, wt) ∧
      wt.length = 2 * d.length - 3 ∧
      tree.length = 2 * d.length - 2 ∧
      (∀ u, u < d.length → deg tree u = 1) ∧
      (∀ u, d.length ≤ u → u < 2 * d.length - 2 → deg tree u = 3) := by
  obtain ⟨hsqB, _, _, hzdB⟩ := validate_none_parts hval
  have hsq : SquareQ d d.length := squareQ_of_validate hsqB
  have hzd : ZeroDiagQ d d.length := zeroDiagonal_specQ d hsqB hzdB
  obtain ⟨tree, wt, hrun, htl, hwl, hdnx, hdint, hdrest⟩ :=
    njRec_spec d.length d.length d (List.range d.length) d.length
      (by omega) (le_refl _) hsq hzd (List.length_range _) (List.nodup_range _)
      (fun u hu => List.mem_range.mp hu)
  refine ⟨tree, wt, ?_, ?_, ?_, ?_, ?_⟩
  · unfold NeighborJoin NeighborJoinD
    rw [Clone_eq]
    exact hrun
  · rw [hwl]
  · rw [htl]; omega
  · intro u hu
    exact hdnx u (List.mem_range.mpr hu)
  · intro u h1 h2
    exact hdint u h1 (by omega)

/-- Claim C3 (counterexample): the 3-row matrix `[[0,3,4],[3,0,5],[4,5,0]]`
passes `Validate`, and `NeighborJoin` returns a tree whose weight list has
`3 = 2n-3` entries (one per edge) and whose half-edge total is `6 = 2*(2n-3)`,
so the tree has `2n-3` edges, not `2n-2 = 4` as the claim states. -/
theorem claim_C3_counterexample :
    Validate (liftQ [[0,3,4],[3,0,5],[4,5,0]]) = none ∧
    NeighborJoin [[0,3,4],[3,0,5],[4,5,0]] =
      some ([[(3,1)],[(3,2)],[(3,0)],[(2,0),(0,1),(1,2)]], ([3,1,2] : List ℚ)) ∧
    ([3,1,2] : List ℚ).length ≠
      2 * ([[0,3,4],[3,0,5],[4,5,0]] : Mat).length - 2 ∧
    (([[(3,1)],[(3,2)],[(3,0)],[(2,0),(0,1),(1,2)]] :
        List (List (ℕ × ℕ))).map List.length).sum ≠
      2 * (2 * ([[0,3,4],[3,0,5],[4,5,0]] : Mat).length - 2) := by
  refine ⟨?_, ?_, by decide, by decide⟩
  · norm_num [Validate, Square, NonNegative, Symmetric, ZeroDiagonal,
      TriangleInequality, triTuples, triViolation, fget, F.add, F.beq, F.flt,
      liftQ, List.all, List.find?, List.enum, List.enumFrom, List.range,
      List.range.loop, List.flatMap, List.take, List.map, List.getD]
  · norm_num [NeighborJoin, NeighborJoinD, njRec, njClosest, njUpdate,
      adjAppend, Clone, getQ, setQ, ltInf, List.foldl, List.range,
      List.range.loop, List.map, List.sum, List.getD, List.set,
      List.eraseIdx, Int.toNat_ofNat, Int.toNat]

theorem claim_C3_witness :
    ∃ tree wt, NeighborJoin [[0,3,4],[3,0,5],[4,5,0]] = some (tree, wt) ∧
      wt.length = 2 * 3 - 3 ∧ tree.length = 2 * 3 - 2 ∧
      (∀ u, u < 3 → deg tree u = 1) ∧
      (∀ u, 3 ≤ u → u < 2 * 3 - 2 → deg tree u = 3) :=
  claim_C3_amended [[0,3,4],[3,0,5],[4,5,0]]
    (by norm_num [Validate, Square, NonNegative, Symmetric, ZeroDiagonal,
      TriangleInequality, triTuples, triViolation, fget, F.add, F.beq, F.flt,
      liftQ, List.all, List.find?, List.enum, List.enumFrom, List.range,
      List.range.loop, List.flatMap, List.take, List.map, List.getD])
    (by decide)



/-- The age stored for node `c` in the label list (Go `ul[c].Age`). -/
def uage (ul : List (Option ℚ × ℚ)) (c : ℕ) : ℚ := (ul.getD c (none, 0)).2

/-- The distance written by the `DAVG` update at column `j`, computed from
the matrix as it stands when the update loop starts. -/
def davgVal (orig : Mat) (d1 d2 m1 m2 m3 j : ℕ) : ℚ :=
  (getQ orig d1 j * (m1 : ℚ) + getQ orig d2 j * (m2 : ℚ)) * (1 / (m3 : ℚ))

set_option maxHeartbeats 1000000 in
theorem davgFold_go (orig : Mat) (n d1 d2 m1 m2 m3 : ℕ) (hd1 : d1 < n) :
    ∀ (L P : List ℕ) (dm' : Mat),
      (∀ j ∈ L, j < n) → L.Nodup → (∀ j ∈ L, j ∉ P) →
      SquareQ dm' n →
      (∀ a b : ℕ, getQ dm' a b =
        if a = d1 ∧ b ∈ P then davgVal orig d1 d2 m1 m2 m3 b
        else if b = d1 ∧ a ∈ P then davgVal orig d1 d2 m1 m2 m3 a
        else getQ orig a b) →
      SquareQ (L.foldl (fun dm j =>
          if j ≠ d1 then
            setQ (setQ dm d1 j ((getQ dm d1 j * (m1 : ℚ) +
              getQ dm d2 j * (m2 : ℚ)) * (1 / (m3 : ℚ)))) j d1
              ((getQ dm d1 j * (m1 : ℚ) + getQ dm d2 j * (m2 : ℚ)) *
                (1 / (m3 : ℚ)))
          else dm) dm') n ∧
      (∀ a b : ℕ, getQ (L.foldl (fun dm j =>
          if j ≠ d1 then
            setQ (setQ dm d1 j ((getQ dm d1 j * (m1 : ℚ) +
              getQ dm d2 j * (m2 : ℚ)) * (1 / (m3 : ℚ)))) j d1
              ((getQ dm d1 j * (m1 : ℚ) + getQ dm d2 j * (m2 : ℚ)) *
                (1 / (m3 : ℚ)))
          else dm) dm') a b =
        if a = d1 ∧ (b ∈ P ∨ (b ∈ L ∧ b ≠ d1)) then
          davgVal orig d1 d2 m1 m2 m3 b
        else if b = d1 ∧ (a ∈ P ∨ (a ∈ L ∧ a ≠ d1)) then
          davgVal orig d1 d2 m1 m2 m3 a
        else getQ orig a b) := by
  intro L
  induction L with
  | nil =>
    intro P dm' hLn hnd hLP hsq hchar
    refine ⟨hsq, ?_⟩
    intro a b
    rw [List.foldl_nil, hchar a b]
    simp
  | cons j L' ih =>
    intro P dm' hLn hnd hLP hsq hchar
    have hjn : j < n := hLn j (List.mem_cons_self j L')
    have hjP : j ∉ P := hLP j (List.mem_cons_self j L')
    rw [List.foldl_cons]
    by_cases hjd1 : j ≠ d1
    · -- the update fires at column j
      have hm1 : getQ dm' d1 j = getQ orig d1 j := by
        rw [hchar d1 j]
        rw [if_neg (fun h => hjP h.2)]
        rw [if_neg (fun h => hjd1 h.1)]
      have hm2 : getQ dm' d2 j = getQ orig d2 j := by
        rw [hchar d2 j]
        by_cases hd2d1 : d2 = d1
        · rw [if_neg (fun h => hjP h.2)]
          rw [if_neg (fun h => hjd1 h.1)]
        · rw [if_neg (fun h => hd2d1 h.1)]
          rw [if_neg (fun h => hjd1 h.1)]
      have hred : (if j ≠ d1 then
            setQ (setQ dm' d1 j ((getQ dm' d1 j * (m1 : ℚ) +
              getQ dm' d2 j * (m2 : ℚ)) * (1 / (m3 : ℚ)))) j d1
              ((getQ dm' d1 j * (m1 : ℚ) + getQ dm' d2 j * (m2 : ℚ)) *
                (1 / (m3 : ℚ)))
          else dm') =
          setQ (setQ dm' d1 j (davgVal orig d1 d2 m1 m2 m3 j)) j d1
            (davgVal orig d1 d2 m1 m2 m3 j) := by
        rw [if_pos hjd1, hm1, hm2]
        rfl
      rw [hred]
      have hsq1 : SquareQ (setQ dm' d1 j (davgVal orig d1 d2 m1 m2 m3 j)) n :=
        squareQ_setQ hsq d1 j _
      have hsq2 : SquareQ (setQ (setQ dm' d1 j
          (davgVal orig d1 d2 m1 m2 m3 j)) j d1
          (davgVal orig d1 d2 m1 m2 m3 j)) n := squareQ_setQ hsq1 j d1 _
      have hchar2 : ∀ a b : ℕ,
          getQ (setQ (setQ dm' d1 j (davgVal orig d1 d2 m1 m2 m3 j)) j d1
            (davgVal orig d1 d2 m1 m2 m3 j)) a b =
          if a = d1 ∧ b ∈ j :: P then davgVal orig d1 d2 m1 m2 m3 b
          else if b = d1 ∧ a ∈ j :: P then davgVal orig d1 d2 m1 m2 m3 a
          else getQ orig a b := by
        intro a b
        by_cases h1 : a = j ∧ b = d1
        · rw [h1.1, h1.2]
          rw [getQ_setQ_same' _ hsq1 hjn hd1]
          rw [if_neg (fun h => hjd1 h.1),
            if_pos ⟨rfl, List.mem_cons_self j P⟩]
        · have hstep1 : getQ (setQ (setQ dm' d1 j
              (davgVal orig d1 d2 m1 m2 m3 j)) j d1
              (davgVal orig d1 d2 m1 m2 m3 j)) a b =
              getQ (setQ dm' d1 j (davgVal orig d1 d2 m1 m2 m3 j)) a b :=
            getQ_setQ_other _ (by tauto)
          rw [hstep1]
          by_cases h2 : a = d1 ∧ b = j
          · rw [h2.1, h2.2]
            rw [getQ_setQ_same' _ hsq hd1 hjn,
              if_pos ⟨rfl, List.mem_cons_self j P⟩]
          · rw [getQ_setQ_other _ (by tauto), hchar a b]
            by_cases hA : a = d1 ∧ b ∈ P
            · have hA' : a = d1 ∧ b ∈ j :: P :=
                ⟨hA.1, List.mem_cons_of_mem j hA.2⟩
              rw [if_pos hA, if_pos hA']
            · have hA' : ¬(a = d1 ∧ b ∈ j :: P) := by
                rintro ⟨ha, hb⟩
                rcases List.mem_cons.mp hb with h' | hb'
                · exact h2 ⟨ha, h'⟩
                · exact hA ⟨ha, hb'⟩
              rw [if_neg hA, if_neg hA']
              by_cases hB : b = d1 ∧ a ∈ P
              · have hB' : b = d1 ∧ a ∈ j :: P :=
                  ⟨hB.1, List.mem_cons_of_mem j hB.2⟩
                rw [if_pos hB, if_pos hB']
              · have hB' : ¬(b = d1 ∧ a ∈ j :: P) := by
                  rintro ⟨hb, ha⟩
                  rcases List.mem_cons.mp ha with h' | ha'
                  · exact h1 ⟨h', hb⟩
                  · exact hB ⟨hb, ha'⟩
                rw [if_neg hB, if_neg hB']
      obtain ⟨hsqu, hcharu⟩ := ih (j :: P) _
        (fun x hx => hLn x (List.mem_cons_of_mem j hx))
        (List.Nodup.of_cons hnd)
        (fun x hx => by
          intro hmem
          rcases List.mem_cons.mp hmem with h' | hxP
          · rw [h'] at hx
            exact (List.nodup_cons.mp hnd).1 hx
          · exact hLP x (List.mem_cons_of_mem j hx) hxP)
        hsq2 hchar2
      refine ⟨hsqu, ?_⟩
      intro a b
      rw [hcharu a b]
      have e1 : (b ∈ j :: P ∨ (b ∈ L' ∧ b ≠ d1)) ↔
          (b ∈ P ∨ (b ∈ j :: L' ∧ b ≠ d1)) := by
        simp only [List.mem_cons]
        constructor
        · rintro ((rfl | hbP) | ⟨hbL, hbd⟩)
          · exact Or.inr ⟨Or.inl rfl, hjd1⟩
          · exact Or.inl hbP
          · exact Or.inr ⟨Or.inr hbL, hbd⟩
        · rintro (hbP | ⟨(rfl | hbL), hbd⟩)
          · exact Or.inl (Or.inr hbP)
          · exact Or.inl (Or.inl rfl)
          · exact Or.inr ⟨hbL, hbd⟩
      have e2 : (a ∈ j :: P ∨ (a ∈ L' ∧ a ≠ d1)) ↔
          (a ∈ P ∨ (a ∈ j :: L' ∧ a ≠ d1)) := by
        simp only [List.mem_cons]
        constructor
        · rintro ((rfl | haP) | ⟨haL, had⟩)
          · exact Or.inr ⟨Or.inl rfl, hjd1⟩
          · exact Or.inl haP
          · exact Or.inr ⟨Or.inr haL, had⟩
        · rintro (haP | ⟨(rfl | haL), had⟩)
          · exact Or.inl (Or.inr haP)
          · exact Or.inl (Or.inl rfl)
          · exact Or.inr ⟨haL, had⟩
      by_cases hA : a = d1 ∧ (b ∈ j :: P ∨ (b ∈ L' ∧ b ≠ d1))
      · have hA' : a = d1 ∧ (b ∈ P ∨ (b ∈ j :: L' ∧ b ≠ d1)) :=
          ⟨hA.1, e1.mp hA.2⟩
        rw [if_pos hA, if_pos hA']
      · have hA' : ¬(a = d1 ∧ (b ∈ P ∨ (b ∈ j :: L' ∧ b ≠ d1))) :=
          fun h => hA ⟨h.1, e1.mpr h.2⟩
        rw [if_neg hA, if_neg hA']
        by_cases hB : b = d1 ∧ (a ∈ j :: P ∨ (a ∈ L' ∧ a ≠ d1))
        · have hB' : b = d1 ∧ (a ∈ P ∨ (a ∈ j :: L' ∧ a ≠ d1)) :=
            ⟨hB.1, e2.mp hB.2⟩
          rw [if_pos hB, if_pos hB']
        · have hB' : ¬(b = d1 ∧ (a ∈ P ∨ (a ∈ j :: L' ∧ a ≠ d1))) :=
            fun h => hB ⟨h.1, e2.mpr h.2⟩
          rw [if_neg hB, if_neg hB']
    · -- j = d1: the guard skips this column
      have hj : j = d1 := not_not.mp hjd1
      have hred : (if j ≠ d1 then
            setQ (setQ dm' d1 j ((getQ dm' d1 j * (m1 : ℚ) +
              getQ dm' d2 j * (m2 : ℚ)) * (1 / (m3 : ℚ)))) j d1
              ((getQ dm' d1 j * (m1 : ℚ) + getQ dm' d2 j * (m2 : ℚ)) *
                (1 / (m3 : ℚ)))
          else dm') = dm' := by
        rw [if_neg hjd1]
      rw [hred]
      obtain ⟨hsqu, hcharu⟩ := ih P dm'
        (fun x hx => hLn x (List.mem_cons_of_mem j hx))
        (List.Nodup.of_cons hnd)
        (fun x hx => hLP x (List.mem_cons_of_mem j hx))
        hsq hchar
      refine ⟨hsqu, ?_⟩
      intro a b
      rw [hcharu a b]
      have e1 : (b ∈ P ∨ (b ∈ L' ∧ b ≠ d1)) ↔
          (b ∈ P ∨ (b ∈ j :: L' ∧ b ≠ d1)) := by
        rw [hj]
        simp only [List.mem_cons]
        constructor
        · rintro (hbP | ⟨hbL, hbd⟩)
          · exact Or.inl hbP
          · exact Or.inr ⟨Or.inr hbL, hbd⟩
        · rintro (hbP | ⟨(rfl | hbL), hbd⟩)
          · exact Or.inl hbP
          · exact absurd rfl hbd
          · exact Or.inr ⟨hbL, hbd⟩
      have e2 : (a ∈ P ∨ (a ∈ L' ∧ a ≠ d1)) ↔
          (a ∈ P ∨ (a ∈ j :: L' ∧ a ≠ d1)) := by
        rw [hj]
        simp only [List.mem_cons]
        constructor
        · rintro (haP | ⟨haL, had⟩)
          · exact Or.inl haP
          · exact Or.inr ⟨Or.inr haL, had⟩
        · rintro (haP | ⟨(rfl | haL), had⟩)
          · exact Or.inl haP
          · exact absurd rfl had
          · exact Or.inr ⟨haL, had⟩
      by_cases hA : a = d1 ∧ (b ∈ P ∨ (b ∈ L' ∧ b ≠ d1))
      · have hA' : a = d1 ∧ (b ∈ P ∨ (b ∈ j :: L' ∧ b ≠ d1)) :=
          ⟨hA.1, e1.mp hA.2⟩
        rw [if_pos hA, if_pos hA']
      · have hA' : ¬(a = d1 ∧ (b ∈ P ∨ (b ∈ j :: L' ∧ b ≠ d1))) :=
          fun h => hA ⟨h.1, e1.mpr h.2⟩
        rw [if_neg hA, if_neg hA']
        by_cases hB : b = d1 ∧ (a ∈ P ∨ (a ∈ L' ∧ a ≠ d1))
        · have hB' : b = d1 ∧ (a ∈ P ∨ (a ∈ j :: L' ∧ a ≠ d1)) :=
            ⟨hB.1, e2.mp hB.2⟩
          rw [if_pos hB, if_pos hB']
        · have hB' : ¬(b = d1 ∧ (a ∈ P ∨ (a ∈ j :: L' ∧ a ≠ d1))) :=
            fun h => hB ⟨h.1, e2.mpr h.2⟩
          rw [if_neg hB, if_neg hB']

theorem davgFold_spec (dm : Mat) (n d1 d2 m1 m2 m3 : ℕ)
    (clusters : List ℕ) (hsq : SquareQ dm n) (hd1 : d1 < n)
    (hcl : ∀ j ∈ clusters, j < n) (hnd : clusters.Nodup) :
    SquareQ (davgFold clusters d1 d2 m1 m2 m3 dm) n ∧
    (∀ a b : ℕ, getQ (davgFold clusters d1 d2 m1 m2 m3 dm) a b =
      if a = d1 ∧ (b ∈ clusters ∧ b ≠ d1) then davgVal dm d1 d2 m1 m2 m3 b
      else if b = d1 ∧ (a ∈ clusters ∧ a ≠ d1) then davgVal dm d1 d2 m1 m2 m3 a
      else getQ dm a b) := by
  obtain ⟨hsqu, hcharu⟩ := davgFold_go dm n d1 d2 m1 m2 m3 hd1 clusters [] dm
    hcl hnd (fun j _ => List.not_mem_nil j) hsq
    (by intro a b; simp)
  constructor
  · exact hsqu
  · intro a b
    have := hcharu a b
    simp only [List.not_mem_nil, false_or] at this
    exact this

theorem getD_getElem? {l : List ℕ} {q : ℕ} (hq : q < l.length) :
    l[q]? = some (l.getD q 0) := by
  rw [List.getElem?_eq_getElem hq, List.getD_eq_getElem l 0 hq]

theorem swapdel_len (cl : List ℕ) (cl2 : ℕ) :
    ((cl.set cl2 (cl.getD (cl.length - 1) 0)).take (cl.length - 1)).length =
      cl.length - 1 := by
  rw [List.length_take, List.length_set]
  omega

theorem swapdel_getElem {cl : List ℕ} {cl2 q : ℕ} (hcl2 : cl2 < cl.length)
    (hq : q < cl.length - 1) :
    ((cl.set cl2 (cl.getD (cl.length - 1) 0)).take (cl.length - 1))[q]? =
      if cl2 = q then some (cl.getD (cl.length - 1) 0) else cl[q]? := by
  rw [List.getElem?_take, if_pos hq, List.getElem?_set, if_pos hcl2]

theorem swapdel_mem {cl : List ℕ} {cl2 d2 u : ℕ} (hnd : cl.Nodup)
    (hc2 : cl[cl2]? = some d2)
    (hu : u ∈ (cl.set cl2 (cl.getD (cl.length - 1) 0)).take (cl.length - 1)) :
    u ∈ cl ∧ u ≠ d2 := by
  have hcl2 : cl2 < cl.length := by
    by_contra h
    rw [List.getElem?_eq_none (by omega)] at hc2
    exact absurd hc2 (by simp)
  rcases List.mem_iff_getElem.mp hu with ⟨q, hq, he⟩
  have hq' : q < cl.length - 1 := by
    have hl := swapdel_len cl cl2
    omega
  have he' : ((cl.set cl2 (cl.getD (cl.length - 1) 0)).take
      (cl.length - 1))[q]? = some u := by
    rw [List.getElem?_eq_getElem hq]
    exact congrArg some he
  rw [swapdel_getElem hcl2 hq'] at he'
  have hlast : cl.length - 1 < cl.length := by omega
  by_cases hcq : cl2 = q
  · rw [if_pos hcq] at he'
    have hul : cl[cl.length - 1]? = some u := by
      rw [getD_getElem? hlast]
      exact he' 
    constructor
    · exact List.getElem?_mem hul
    · intro hud
      rw [hud] at hul
      have := nodup_index_inj hnd hul hc2
      omega
  · rw [if_neg hcq] at he'
    constructor
    · exact List.getElem?_mem he'
    · intro hud
      rw [hud] at he'
      exact hcq (nodup_index_inj hnd hc2 he')

theorem mem_swapdel {cl : List ℕ} {cl2 d2 u : ℕ} (hnd : cl.Nodup)
    (hc2 : cl[cl2]? = some d2) (hu : u ∈ cl) (hne : u ≠ d2) :
    u ∈ (cl.set cl2 (cl.getD (cl.length - 1) 0)).take (cl.length - 1) := by
  have hcl2 : cl2 < cl.length := by
    by_contra h
    rw [List.getElem?_eq_none (by omega)] at hc2
    exact absurd hc2 (by simp)
  rcases List.mem_iff_getElem.mp hu with ⟨q, hq, he⟩
  have hq' : cl[q]? = some u := by
    rw [List.getElem?_eq_getElem hq]
    exact congrArg some he
  have hqc : q ≠ cl2 := by
    intro h
    rw [h] at hq'
    exact hne (Option.some.inj (hq'.symm.trans hc2))
  by_cases hql : q < cl.length - 1
  · exact List.getElem?_mem (show ((cl.set cl2 (cl.getD (cl.length - 1)
      0)).take (cl.length - 1))[q]? = some u by
      rw [swapdel_getElem hcl2 hql, if_neg (fun h => hqc h.symm)]
      exact hq')
  · have hqlast : q = cl.length - 1 := by omega
    have hc2last : cl2 < cl.length - 1 := by omega
    exact List.getElem?_mem (show ((cl.set cl2 (cl.getD (cl.length - 1)
      0)).take (cl.length - 1))[cl2]? = some u by
      rw [swapdel_getElem hcl2 hc2last, if_pos rfl, ← hqlast,
        ← getD_getElem? hq]
      exact hq')

theorem swapdel_nodup {cl : List ℕ} {cl2 : ℕ} (hnd : cl.Nodup)
    (hcl2 : cl2 < cl.length) :
    ((cl.set cl2 (cl.getD (cl.length - 1) 0)).take (cl.length - 1)).Nodup := by
  rw [List.nodup_iff_getElem?_ne_getElem?] at hnd ⊢
  intro i j hij hj
  rw [swapdel_len] at hj
  have hlast : cl.length - 1 < cl.length := by omega
  rw [swapdel_getElem hcl2 (by omega), swapdel_getElem hcl2 hj]
  by_cases hci : cl2 = i
  · rw [if_pos hci, if_neg (by omega)]
    rw [← getD_getElem? hlast]
    exact (hnd j (cl.length - 1) (by omega) hlast).symm
  · rw [if_neg hci]
    by_cases hcj : cl2 = j
    · rw [if_pos hcj, ← getD_getElem? hlast]
      exact hnd i (cl.length - 1) (by omega) hlast
    · rw [if_neg hcj]
      exact hnd i j hij (by omega)

theorem two_mem_lt {cl : List ℕ} (hnd : cl.Nodup) (h2 : 2 ≤ cl.length) :
    ∃ i0 j0, i0 ∈ cl ∧ j0 ∈ cl ∧ i0 < j0 := by
  rcases cl with _ | ⟨x, _ | ⟨y, t⟩⟩
  · simp at h2
  · simp at h2
  · have hxy : x ≠ y := by
      rw [List.nodup_cons] at hnd
      exact fun h => hnd.1 (h ▸ List.mem_cons_self y t)
    rcases Nat.lt_or_ge x y with h | h
    · exact ⟨x, y, List.mem_cons_self _ _,
        List.mem_cons_of_mem _ (List.mem_cons_self _ _), h⟩
    · have hyx : y < x := by omega
      exact ⟨y, x, List.mem_cons_of_mem _ (List.mem_cons_self _ _),
        List.mem_cons_self _ _, hyx⟩

theorem mem_of_two {cl : List ℕ} {d1 d2 : ℕ} (hlen : cl.length = 2)
    (h1 : d1 ∈ cl) (h2 : d2 ∈ cl) (hne : d1 ≠ d2) :
    ∀ u ∈ cl, u = d1 ∨ u = d2 := by
  rcases cl with _ | ⟨x, _ | ⟨y, t⟩⟩
  · simp at hlen
  · simp at hlen
  · have ht : t = [] := by
      have h0 : t.length = 0 := by simpa using hlen
      exact List.eq_nil_of_length_eq_zero h0
    subst ht
    simp only [List.mem_cons, List.not_mem_nil, or_false] at h1 h2 ⊢
    intro u hu
    rcases h1 with rfl | rfl
    · rcases h2 with rfl | rfl
      · exact absurd rfl hne
      · tauto
    · rcases h2 with rfl | rfl
      · tauto
      · exact absurd rfl hne

/-- The parent list built by one `UltrametricD` merge of matrix indices
`a < b` (node ids `cx a`, `cx b`, new node `len pl`). -/
def umNewPl (s : UMState) (a b : ℕ) : List (Int × ℕ) :=
  ((s.pl ++ [((-1 : Int), (s.pl.getD (s.cx.getD a 0) (-1, 0)).2 +
      (s.pl.getD (s.cx.getD b 0) (-1, 0)).2)]).set
    (s.cx.getD a 0) ((s.pl.length : Int),
      (s.pl.getD (s.cx.getD a 0) (-1, 0)).2)).set
    (s.cx.getD b 0) ((s.pl.length : Int),
      (s.pl.getD (s.cx.getD b 0) (-1, 0)).2)

/-- The label list built by the same merge: the new node's age is half the
selected distance, the children keep their ages and get weights. -/
def umNewUl (s : UMState) (a b : ℕ) : List (Option ℚ × ℚ) :=
  ((s.ul ++ [((none : Option ℚ), getQ s.dm b a / 2)]).set
    (s.cx.getD a 0) (some (getQ s.dm b a / 2 -
        (s.ul.getD (s.cx.getD a 0) (none, 0)).2),
      (s.ul.getD (s.cx.getD a 0) (none, 0)).2)).set
    (s.cx.getD b 0) (some (getQ s.dm b a / 2 -
        (s.ul.getD (s.cx.getD b 0) (none, 0)).2),
      (s.ul.getD (s.cx.getD b 0) (none, 0)).2)

theorem umIter_finish (cdf : ℕ) (s : UMState) (a b cl2 : ℕ)
    (hcl : closest s.dm s.clusters = ((a : Int), (b : Int), cl2))
    (hlen : s.clusters.length = 2) :
    umIter cdf s = UMStep.finish
      { s with pl := umNewPl s a b, ul := umNewUl s a b } := by
  have hng : ¬(((a : Int), (b : Int), cl2).1 < 0 ∨
      ((a : Int), (b : Int), cl2).2.1 < 0) := by simp
  simp only [umIter]
  rw [hcl, if_neg hng]
  simp only [Int.toNat_natCast]
  rw [if_pos hlen]
  rfl

theorem umIter_next (s : UMState) (a b cl2 : ℕ)
    (hcl : closest s.dm s.clusters = ((a : Int), (b : Int), cl2))
    (hlen : ¬ s.clusters.length = 2) :
    umIter DAVG s = UMStep.next {
      dm := davgFold s.clusters a b (s.pl.getD (s.cx.getD a 0) (-1, 0)).2
        (s.pl.getD (s.cx.getD b 0) (-1, 0)).2
        ((s.pl.getD (s.cx.getD a 0) (-1, 0)).2 +
          (s.pl.getD (s.cx.getD b 0) (-1, 0)).2) s.dm,
      pl := umNewPl s a b,
      ul := umNewUl s a b,
      clusters := (s.clusters.set cl2
        (s.clusters.getD (s.clusters.length - 1) 0)).take
        (s.clusters.length - 1),
      cx := s.cx.set a s.pl.length } := by
  have hng : ¬(((a : Int), (b : Int), cl2).1 < 0 ∨
      ((a : Int), (b : Int), cl2).2.1 < 0) := by simp
  simp only [umIter]
  rw [hcl, if_neg hng]
  simp only [Int.toNat_natCast]
  rw [if_neg hlen]
  rfl

theorem nonNegative_specQ (d : Mat) (h : NonNegative (liftQ d) = true) :
    ∀ i j, i < d.length → j < (d.getD i []).length → 0 ≤ getQ d i j := by
  intro i j hi hj
  unfold NonNegative at h
  rw [List.all_eq_true] at h
  have hi' : i < (liftQ d).length := by rw [liftQ_length]; exact hi
  have hmem : (liftQ d).getD i [] ∈ liftQ d := by
    rw [List.getD_eq_getElem (liftQ d) [] hi']
    exact List.getElem_mem hi'
  have hrow := h _ hmem
  rw [List.all_eq_true, liftQ_getD] at hrow
  have hj' : j < ((d.getD i []).map F.val).length := by simpa using hj
  have hjm := hrow _ (List.getElem_mem hj')
  rw [List.getElem_map] at hjm
  have hq : getQ d i j = (d.getD i [])[j] := by
    unfold getQ
    exact List.getD_eq_getElem _ 0 hj
  rw [hq]
  exact le_of_not_lt (by simpa [F.flt] using hjm)

theorem range_getD {n i : ℕ} (hi : i < n) : (List.range n).getD i 0 = i := by
  rw [List.getD_eq_getElem?_getD, List.getElem?_range hi]
  rfl

theorem getD_map_const {α β : Type _} (l : List β) (c : ℕ) (x : α) :
    (l.map (fun _ => x)).getD c x = x := by
  rw [List.getD_eq_getElem?_getD, List.getElem?_map]
  rcases l[c]? with _ | v <;> rfl

theorem getD_map_const_in {α β : Type _} (l : List β) (c : ℕ) (x d : α)
    (hc : c < l.length) : (l.map (fun _ => x)).getD c d = x := by
  rw [List.getD_eq_getElem?_getD, List.getElem?_map,
    List.getElem?_eq_getElem hc]
  rfl

theorem wavg_ge {x y l : ℚ} {m1 m2 : ℕ} (hx : l ≤ x) (hy : l ≤ y)
    (hm1 : 1 ≤ m1) (hm2 : 1 ≤ m2) :
    l ≤ (x * (m1 : ℚ) + y * (m2 : ℚ)) * (1 / (((m1 + m2 : ℕ)) : ℚ)) := by
  have hM : (0 : ℚ) < ((m1 + m2 : ℕ) : ℚ) := by
    have h0 : 0 < m1 + m2 := by omega
    exact_mod_cast h0
  have hc : ((m1 + m2 : ℕ) : ℚ) = (m1 : ℚ) + (m2 : ℚ) := by push_cast; ring
  have a1 : l * (m1 : ℚ) ≤ x * m1 :=
    mul_le_mul_of_nonneg_right hx (by positivity)
  have a2 : l * (m2 : ℚ) ≤ y * m2 :=
    mul_le_mul_of_nonneg_right hy (by positivity)
  have h1 : l * ((m1 + m2 : ℕ) : ℚ) ≤ x * m1 + y * m2 := by
    rw [hc]
    calc l * ((m1 : ℚ) + m2) = l * m1 + l * m2 := by ring
    _ ≤ x * m1 + y * m2 := add_le_add a1 a2
  have h2 := mul_le_mul_of_nonneg_right h1
    (le_of_lt (one_div_pos.mpr hM))
  have h3 : l * ((m1 + m2 : ℕ) : ℚ) * (1 / ((m1 + m2 : ℕ) : ℚ)) = l := by
    field_simp
  linarith

theorem umNewPl_len (s : UMState) (a b : ℕ) :
    (umNewPl s a b).length = s.pl.length + 1 := by
  simp [umNewPl]

theorem umNewUl_len (s : UMState) (a b : ℕ) :
    (umNewUl s a b).length = s.ul.length + 1 := by
  simp [umNewUl]

theorem umNewPl_getD_other (s : UMState) (a b c : ℕ)
    (h1 : c ≠ s.cx.getD a 0) (h2 : c ≠ s.cx.getD b 0) (hc : c < s.pl.length) :
    (umNewPl s a b).getD c (-1, 0) = s.pl.getD c (-1, 0) := by
  unfold umNewPl
  rw [getD_set_ne _ _ _ h2, getD_set_ne _ _ _ h1, List.getD_append _ _ _ _ hc]

theorem umNewPl_getD_a (s : UMState) (a b : ℕ)
    (ha : s.cx.getD a 0 < s.pl.length) (hab : s.cx.getD a 0 ≠ s.cx.getD b 0) :
    (umNewPl s a b).getD (s.cx.getD a 0) (-1, 0) =
      ((s.pl.length : Int), (s.pl.getD (s.cx.getD a 0) (-1, 0)).2) := by
  unfold umNewPl
  rw [getD_set_ne _ _ _ hab, getD_set_self,
    if_pos (by rw [List.length_append, List.length_singleton]; omega)]

theorem umNewPl_getD_b (s : UMState) (a b : ℕ)
    (hb : s.cx.getD b 0 < s.pl.length) :
    (umNewPl s a b).getD (s.cx.getD b 0) (-1, 0) =
      ((s.pl.length : Int), (s.pl.getD (s.cx.getD b 0) (-1, 0)).2) := by
  unfold umNewPl
  rw [getD_set_self,
    if_pos (by rw [List.length_set, List.length_append, List.length_singleton]; omega)]

theorem umNewPl_getD_new (s : UMState) (a b : ℕ)
    (h1 : s.cx.getD a 0 < s.pl.length) (h2 : s.cx.getD b 0 < s.pl.length) :
    (umNewPl s a b).getD s.pl.length (-1, 0) =
      ((-1 : Int), (s.pl.getD (s.cx.getD a 0) (-1, 0)).2 +
        (s.pl.getD (s.cx.getD b 0) (-1, 0)).2) := by
  unfold umNewPl
  rw [getD_set_ne _ _ _ (by omega), getD_set_ne _ _ _ (by omega),
    List.getD_append_right _ _ _ _ (le_refl _), Nat.sub_self]
  rfl

theorem umNewUl_uage_other (s : UMState) (a b c : ℕ)
    (h1 : c ≠ s.cx.getD a 0) (h2 : c ≠ s.cx.getD b 0)
    (hc : c < s.ul.length) :
    uage (umNewUl s a b) c = uage s.ul c := by
  unfold umNewUl uage
  rw [getD_set_ne _ _ _ h2, getD_set_ne _ _ _ h1, List.getD_append _ _ _ _ hc]

theorem umNewUl_uage_a (s : UMState) (a b : ℕ)
    (ha : s.cx.getD a 0 < s.ul.length)
    (hab : s.cx.getD a 0 ≠ s.cx.getD b 0) :
    uage (umNewUl s a b) (s.cx.getD a 0) = uage s.ul (s.cx.getD a 0) := by
  unfold umNewUl uage
  rw [getD_set_ne _ _ _ hab, getD_set_self,
    if_pos (by rw [List.length_append, List.length_singleton]; omega)]

theorem umNewUl_uage_b (s : UMState) (a b : ℕ)
    (hb : s.cx.getD b 0 < s.ul.length) :
    uage (umNewUl s a b) (s.cx.getD b 0) = uage s.ul (s.cx.getD b 0) := by
  unfold umNewUl uage
  rw [getD_set_self,
    if_pos (by rw [List.length_set, List.length_append, List.length_singleton]; omega)]

theorem umNewUl_uage_new (s : UMState) (a b : ℕ)
    (h1 : s.cx.getD a 0 < s.ul.length) (h2 : s.cx.getD b 0 < s.ul.length) :
    uage (umNewUl s a b) s.ul.length = getQ s.dm b a / 2 := by
  unfold umNewUl uage
  rw [getD_set_ne _ _ _ (by omega), getD_set_ne _ _ _ (by omega),
    List.getD_append_right _ _ _ _ (le_refl _), Nat.sub_self]
  rfl

theorem umNewUl_uage_out (s : UMState) (a b c : ℕ)
    (hc : s.ul.length + 1 ≤ c) : uage (umNewUl s a b) c = 0 := by
  unfold umNewUl uage
  rw [List.getD_eq_getElem?_getD, List.getElem?_eq_none (by
    simp only [List.length_set, List.length_append, List.length_singleton]
    omega)]
  rfl

/-- The loop invariant of `UltrametricD` with average linkage, over the live
state: matrix shape, live-list sanity, node bookkeeping, symmetry of live
distances, the bound relating live distances to cluster ages, and the
accumulated parent/age structure. -/
structure UMInv (n : ℕ) (s : UMState) : Prop where
  sq : SquareQ s.dm n
  cl_lt : ∀ i ∈ s.clusters, i < n
  cl_nd : s.clusters.Nodup
  cl_len2 : 2 ≤ s.clusters.length
  plul : s.ul.length = s.pl.length
  pl_len : s.pl.length + s.clusters.length = 2 * n
  cx_len : s.cx.length = n
  cx_lt : ∀ i ∈ s.clusters, s.cx.getD i 0 < s.pl.length
  cx_inj : ∀ i ∈ s.clusters, ∀ j ∈ s.clusters, i ≠ j →
    s.cx.getD i 0 ≠ s.cx.getD j 0
  sym : ∀ i ∈ s.clusters, ∀ j ∈ s.clusters, getQ s.dm i j = getQ s.dm j i
  distAge : ∀ i ∈ s.clusters, ∀ j ∈ s.clusters, i ≠ j →
    2 * uage s.ul (s.cx.getD i 0) ≤ getQ s.dm i j
  age_nonneg : ∀ c, 0 ≤ uage s.ul c
  frontier : ∀ c, c < s.pl.length → ∃ i ∈ s.clusters,
    uage s.ul c ≤ uage s.ul (s.cx.getD i 0)
  parent_ok : ∀ c, c < s.pl.length →
    (s.pl.getD c ((-1 : Int), 0)).1 = -1 ∨
    ∃ p : ℕ, (s.pl.getD c ((-1 : Int), 0)).1 = (p : Int) ∧
      p < s.pl.length ∧ uage s.ul c ≤ uage s.ul p
  root_live : ∀ c, c < s.pl.length →
    (s.pl.getD c ((-1 : Int), 0)).1 = -1 →
    ∃ i ∈ s.clusters, s.cx.getD i 0 = c
  len_pos : ∀ c, c < s.pl.length → 1 ≤ (s.pl.getD c ((-1 : Int), 0)).2

theorem umInv_init (d : Mat) (hval : Validate (liftQ d) = none)
    (h2 : 2 ≤ d.length) : UMInv d.length (umInit d) := by
  obtain ⟨hsqB, hnnB, hsyB, _⟩ := validate_none_parts hval
  have hrow := square_spec d hsqB
  have hage0 : ∀ c, uage ((List.range d.length).map
      fun _ => ((none : Option ℚ), (0 : ℚ))) c = 0 := by
    intro c
    unfold uage
    rw [getD_map_const]
  refine ⟨?_, ?_, ?_, ?_, ?_, ?_, ?_, ?_, ?_, ?_, ?_, ?_, ?_, ?_, ?_, ?_⟩
  · exact squareQ_of_validate hsqB
  · intro i hi
    exact List.mem_range.mp hi
  · exact List.nodup_range _
  · show 2 ≤ (List.range d.length).length
    simpa using h2
  · simp [umInit]
  · simp [umInit]
    omega
  · simp [umInit]
  · intro i hi
    simp only [umInit, List.length_map, List.length_range]
    rw [range_getD (List.mem_range.mp hi)]
    exact List.mem_range.mp hi
  · intro i hi j hj hne
    rw [show (umInit d).cx = List.range d.length from rfl,
      range_getD (List.mem_range.mp hi), range_getD (List.mem_range.mp hj)]
    exact hne
  · intro i hi j hj
    exact symmetric_specQ d hsqB hsyB i j (List.mem_range.mp hi)
      (List.mem_range.mp hj)
  · intro i hi j hj hne
    rw [show (umInit d).ul = (List.range d.length).map
      (fun _ => ((none : Option ℚ), (0 : ℚ))) from rfl, hage0]
    have hjn := List.mem_range.mp hj
    have hin := List.mem_range.mp hi
    have hnn := nonNegative_specQ d hnnB i j hin (by rw [hrow i hin]; exact hjn)
    show (2 : ℚ) * 0 ≤ getQ d i j
    linarith
  · intro c
    rw [show (umInit d).ul = (List.range d.length).map
      (fun _ => ((none : Option ℚ), (0 : ℚ))) from rfl, hage0]
  · intro c hc
    simp only [umInit, List.length_map, List.length_range] at hc
    refine ⟨c, List.mem_range.mpr hc, ?_⟩
    rw [show (umInit d).ul = (List.range d.length).map
      (fun _ => ((none : Option ℚ), (0 : ℚ))) from rfl, hage0, hage0]
  · intro c hc
    left
    simp only [umInit, List.length_map, List.length_range] at hc
    rw [show (umInit d).pl = (List.range d.length).map
      (fun _ => ((-1 : Int), 1)) from rfl]
    rw [getD_map_const_in _ _ _ _ (by simpa using hc)]
  · intro c hc _
    simp only [umInit, List.length_map, List.length_range] at hc
    refine ⟨c, List.mem_range.mpr hc, ?_⟩
    exact range_getD hc
  · intro c hc
    simp only [umInit, List.length_map, List.length_range] at hc
    rw [show (umInit d).pl = (List.range d.length).map
      (fun _ => ((-1 : Int), 1)) from rfl]
    rw [getD_map_const_in _ _ _ _ (by simpa using hc)]

theorem merge_facts {n : ℕ} {s : UMState} (inv : UMInv n s)
    {d1 d2 cl2 : ℕ} (hd1m : d1 ∈ s.clusters)
    (hd2c : s.clusters[cl2]? = some d2) (h12 : d1 < d2)
    (hmin : ∀ q ∈ scanPairs s.clusters,
      pairVal s.dm (d1, d2, cl2) ≤ pairVal s.dm q) :
    d2 ∈ s.clusters ∧
    (∀ i ∈ s.clusters, ∀ j ∈ s.clusters, i ≠ j →
      getQ s.dm d2 d1 ≤ getQ s.dm i j) ∧
    uage s.ul (s.cx.getD d1 0) ≤ getQ s.dm d2 d1 / 2 ∧
    uage s.ul (s.cx.getD d2 0) ≤ getQ s.dm d2 d1 / 2 ∧
    0 ≤ getQ s.dm d2 d1 / 2 := by
  have hd2m : d2 ∈ s.clusters := List.getElem?_mem hd2c
  have hsym12 : getQ s.dm d2 d1 = getQ s.dm d1 d2 := inv.sym d2 hd2m d1 hd1m
  have hminall : ∀ i ∈ s.clusters, ∀ j ∈ s.clusters, i ≠ j →
      getQ s.dm d2 d1 ≤ getQ s.dm i j := by
    intro i hi j hj hne
    rcases Nat.lt_or_ge i j with hij | hij
    · rcases List.mem_iff_getElem.mp hj with ⟨c, hc, hce⟩
      have hcq : s.clusters[c]? = some j := by
        rw [List.getElem?_eq_getElem hc]
        exact congrArg some hce
      have hq := hmin (i, j, c) (mem_scanPairs.mpr ⟨hi, hij, hcq⟩)
      unfold pairVal at hq
      rw [hsym12]
      exact hq
    · have hji : j < i := by omega
      rcases List.mem_iff_getElem.mp hi with ⟨c, hc, hce⟩
      have hcq : s.clusters[c]? = some i := by
        rw [List.getElem?_eq_getElem hc]
        exact congrArg some hce
      have hq := hmin (j, i, c) (mem_scanPairs.mpr ⟨hj, hji, hcq⟩)
      unfold pairVal at hq
      rw [hsym12, inv.sym i hi j hj]
      exact hq
  refine ⟨hd2m, hminall, ?_, ?_, ?_⟩
  · have h := inv.distAge d1 hd1m d2 hd2m (by omega)
    rw [hsym12]
    linarith
  · have h := inv.distAge d2 hd2m d1 hd1m (by omega)
    linarith
  · have h := inv.distAge d1 hd1m d2 hd2m (by omega)
    have h0 := inv.age_nonneg (s.cx.getD d1 0)
    rw [hsym12]
    linarith

set_option maxHeartbeats 1600000 in
theorem umInv_step {n : ℕ} {s : UMState} (inv : UMInv n s)
    {d1 d2 cl2 : ℕ} (hd1m : d1 ∈ s.clusters)
    (hd2c : s.clusters[cl2]? = some d2) (h12 : d1 < d2)
    (hmin : ∀ q ∈ scanPairs s.clusters,
      pairVal s.dm (d1, d2, cl2) ≤ pairVal s.dm q)
    (hlen : ¬ s.clusters.length = 2) :
    UMInv n
      { dm := davgFold s.clusters d1 d2
          (s.pl.getD (s.cx.getD d1 0) (-1, 0)).2
          (s.pl.getD (s.cx.getD d2 0) (-1, 0)).2
          ((s.pl.getD (s.cx.getD d1 0) (-1, 0)).2 +
            (s.pl.getD (s.cx.getD d2 0) (-1, 0)).2) s.dm,
        pl := umNewPl s d1 d2,
        ul := umNewUl s d1 d2,
        clusters := (s.clusters.set cl2
          (s.clusters.getD (s.clusters.length - 1) 0)).take
          (s.clusters.length - 1),
        cx := s.cx.set d1 s.pl.length } := by
  obtain ⟨hd2m, hminall, hA1, hA2, hA0⟩ := merge_facts inv hd1m hd2c h12 hmin
  have hne12 : d1 ≠ d2 := by omega
  have hd1n : d1 < n := inv.cl_lt d1 hd1m
  have hd2n : d2 < n := inv.cl_lt d2 hd2m
  have hcl2lt : cl2 < s.clusters.length := by
    by_contra h
    rw [List.getElem?_eq_none (by omega)] at hd2c
    exact absurd hd2c (by simp)
  have hc1P : s.cx.getD d1 0 < s.pl.length := inv.cx_lt d1 hd1m
  have hc2P : s.cx.getD d2 0 < s.pl.length := inv.cx_lt d2 hd2m
  have hc12 : s.cx.getD d1 0 ≠ s.cx.getD d2 0 :=
    inv.cx_inj d1 hd1m d2 hd2m hne12
  have hc1U : s.cx.getD d1 0 < s.ul.length := by rw [inv.plul]; exact hc1P
  have hc2U : s.cx.getD d2 0 < s.ul.length := by rw [inv.plul]; exact hc2P
  have hm1 : 1 ≤ (s.pl.getD (s.cx.getD d1 0) (-1, 0)).2 := inv.len_pos _ hc1P
  have hm2 : 1 ≤ (s.pl.getD (s.cx.getD d2 0) (-1, 0)).2 := inv.len_pos _ hc2P
  obtain ⟨hsq', hchar⟩ := davgFold_spec s.dm n d1 d2
    (s.pl.getD (s.cx.getD d1 0) (-1, 0)).2
    (s.pl.getD (s.cx.getD d2 0) (-1, 0)).2
    ((s.pl.getD (s.cx.getD d1 0) (-1, 0)).2 +
      (s.pl.getD (s.cx.getD d2 0) (-1, 0)).2)
    s.clusters inv.sq hd1n inv.cl_lt inv.cl_nd
  have hpres : ∀ c, c < s.ul.length →
      uage (umNewUl s d1 d2) c = uage s.ul c := by
    intro c hc
    by_cases h1 : c = s.cx.getD d1 0
    · rw [h1]
      exact umNewUl_uage_a s d1 d2 hc1U hc12
    · by_cases h2 : c = s.cx.getD d2 0
      · rw [h2]
        exact umNewUl_uage_b s d1 d2 hc2U
      · exact umNewUl_uage_other s d1 d2 c h1 h2 hc
  have hnew : uage (umNewUl s d1 d2) s.ul.length = getQ s.dm d2 d1 / 2 :=
    umNewUl_uage_new s d1 d2 hc1U hc2U
  have hnew' : uage (umNewUl s d1 d2) s.pl.length = getQ s.dm d2 d1 / 2 := by
    rw [← inv.plul]
    exact hnew
  have hcx'd1 : (s.cx.set d1 s.pl.length).getD d1 0 = s.pl.length := by
    rw [getD_set_self, if_pos (by rw [inv.cx_len]; exact hd1n)]
  have hcx'ne : ∀ i, i ≠ d1 →
      (s.cx.set d1 s.pl.length).getD i 0 = s.cx.getD i 0 := by
    intro i hi
    exact getD_set_ne _ _ _ hi
  have hvge : ∀ (l : ℚ) (j : ℕ),
      l ≤ getQ s.dm d1 j → l ≤ getQ s.dm d2 j →
      l ≤ davgVal s.dm d1 d2 (s.pl.getD (s.cx.getD d1 0) (-1, 0)).2
        (s.pl.getD (s.cx.getD d2 0) (-1, 0)).2
        ((s.pl.getD (s.cx.getD d1 0) (-1, 0)).2 +
          (s.pl.getD (s.cx.getD d2 0) (-1, 0)).2) j := by
    intro l j hx hy
    unfold davgVal
    exact wavg_ge hx hy hm1 hm2
  have hx_age : ∀ j ∈ s.clusters, j ≠ d1 →
      2 * uage s.ul (s.cx.getD j 0) ≤ getQ s.dm d1 j := by
    intro j hj hjd1
    rw [inv.sym d1 hd1m j hj]
    exact inv.distAge j hj d1 hd1m hjd1
  have hy_age : ∀ j ∈ s.clusters, j ≠ d2 →
      2 * uage s.ul (s.cx.getD j 0) ≤ getQ s.dm d2 j := by
    intro j hj hjd2
    rw [inv.sym d2 hd2m j hj]
    exact inv.distAge j hj d2 hd2m hjd2
  refine ⟨hsq', ?_, ?_, ?_, ?_, ?_, ?_, ?_, ?_, ?_, ?_, ?_, ?_, ?_, ?_, ?_⟩
  · intro i hi
    exact inv.cl_lt i (swapdel_mem inv.cl_nd hd2c hi).1
  · exact swapdel_nodup inv.cl_nd hcl2lt
  · rw [swapdel_len]
    have h := inv.cl_len2
    omega
  · rw [umNewUl_len, umNewPl_len, inv.plul]
  · rw [umNewPl_len, swapdel_len]
    have h := inv.pl_len
    have h2 := inv.cl_len2
    omega
  · rw [List.length_set]
    exact inv.cx_len
  · intro i hi
    obtain ⟨him, hid2⟩ := swapdel_mem inv.cl_nd hd2c hi
    rw [umNewPl_len]
    by_cases hid1 : i = d1
    · rw [hid1, hcx'd1]
      omega
    · rw [hcx'ne i hid1]
      have h := inv.cx_lt i him
      omega
  · intro i hi j hj hne
    obtain ⟨him, hid2⟩ := swapdel_mem inv.cl_nd hd2c hi
    obtain ⟨hjm, hjd2⟩ := swapdel_mem inv.cl_nd hd2c hj
    by_cases hid1 : i = d1
    · have hjd1 : j ≠ d1 := fun h => hne (by rw [hid1, h])
      rw [hid1, hcx'd1, hcx'ne j hjd1]
      have h := inv.cx_lt j hjm
      omega
    · by_cases hjd1 : j = d1
      · rw [hjd1, hcx'd1, hcx'ne i hid1]
        have h := inv.cx_lt i him
        omega
      · rw [hcx'ne i hid1, hcx'ne j hjd1]
        exact inv.cx_inj i him j hjm hne
  · intro i hi j hj
    obtain ⟨him, hid2⟩ := swapdel_mem inv.cl_nd hd2c hi
    obtain ⟨hjm, hjd2⟩ := swapdel_mem inv.cl_nd hd2c hj
    rw [hchar i j, hchar j i]
    by_cases hid1 : i = d1
    · by_cases hjd1 : j = d1
      · rw [hid1, hjd1]
      · have hcondA : i = d1 ∧ (j ∈ s.clusters ∧ j ≠ d1) :=
          ⟨hid1, hjm, hjd1⟩
        rw [if_pos hcondA]
        have hnotB : ¬(j = d1 ∧ (i ∈ s.clusters ∧ i ≠ d1)) :=
          fun h => hjd1 h.1
        rw [if_neg hnotB]
        have hcondB : i = d1 ∧ (j ∈ s.clusters ∧ j ≠ d1) := hcondA
        rw [if_pos hcondB]
    · by_cases hjd1 : j = d1
      · have hnotA : ¬(i = d1 ∧ (j ∈ s.clusters ∧ j ≠ d1)) :=
          fun h => hid1 h.1
        rw [if_neg hnotA]
        have hcondA : j = d1 ∧ (i ∈ s.clusters ∧ i ≠ d1) :=
          ⟨hjd1, him, hid1⟩
        rw [if_pos hcondA, if_pos hcondA]
      · have hnotA : ¬(i = d1 ∧ (j ∈ s.clusters ∧ j ≠ d1)) :=
          fun h => hid1 h.1
        have hnotB : ¬(j = d1 ∧ (i ∈ s.clusters ∧ i ≠ d1)) :=
          fun h => hjd1 h.1
        rw [if_neg hnotA, if_neg hnotB, if_neg hnotB, if_neg hnotA]
        exact inv.sym i him j hjm
  · intro i hi j hj hne
    obtain ⟨him, hid2⟩ := swapdel_mem inv.cl_nd hd2c hi
    obtain ⟨hjm, hjd2⟩ := swapdel_mem inv.cl_nd hd2c hj
    rw [hchar i j]
    by_cases hid1 : i = d1
    · have hjd1 : j ≠ d1 := fun h => hne (by rw [hid1, h])
      have hcondA : i = d1 ∧ (j ∈ s.clusters ∧ j ≠ d1) := ⟨hid1, hjm, hjd1⟩
      rw [if_pos hcondA, hid1, hcx'd1, hnew']
      have hx := hminall d1 hd1m j hjm (fun h => hjd1 h.symm)
      have hy := hminall d2 hd2m j hjm (fun h => hjd2 h.symm)
      have hv := hvge (getQ s.dm d2 d1) j hx hy
      linarith
    · have hnotA : ¬(i = d1 ∧ (j ∈ s.clusters ∧ j ≠ d1)) :=
        fun h => hid1 h.1
      rw [if_neg hnotA]
      have hciU : s.cx.getD i 0 < s.ul.length := by
        have h := inv.cx_lt i him
        rw [inv.plul]
        exact h
      rw [hcx'ne i hid1, hpres (s.cx.getD i 0) hciU]
      by_cases hjd1 : j = d1
      · have hcondB : j = d1 ∧ (i ∈ s.clusters ∧ i ≠ d1) :=
          ⟨hjd1, him, hid1⟩
        rw [if_pos hcondB]
        exact hvge _ i (hx_age i him hid1) (hy_age i him hid2)
      · have hnotB : ¬(j = d1 ∧ (i ∈ s.clusters ∧ i ≠ d1)) :=
          fun h => hjd1 h.1
        rw [if_neg hnotB]
        exact inv.distAge i him j hjm hne
  · intro c
    rcases lt_trichotomy c s.ul.length with hlt | heq | hgt
    · rw [hpres c hlt]
      exact inv.age_nonneg c
    · rw [heq, hnew]
      exact hA0
    · rw [umNewUl_uage_out s d1 d2 c (by omega)]
  · intro c hc
    rw [umNewPl_len] at hc
    by_cases hcP : c = s.pl.length
    · refine ⟨d1, mem_swapdel inv.cl_nd hd2c hd1m hne12, ?_⟩
      rw [hcP, hcx'd1]
    · have hc' : c < s.pl.length := by omega
      have hcU : c < s.ul.length := by rw [inv.plul]; exact hc'
      obtain ⟨i, hi, hle⟩ := inv.frontier c hc'
      by_cases hi1 : i = d1
      · refine ⟨d1, mem_swapdel inv.cl_nd hd2c hd1m hne12, ?_⟩
        rw [hpres c hcU, hcx'd1, hnew']
        rw [hi1] at hle
        linarith
      · by_cases hi2 : i = d2
        · refine ⟨d1, mem_swapdel inv.cl_nd hd2c hd1m hne12, ?_⟩
          rw [hpres c hcU, hcx'd1, hnew']
          rw [hi2] at hle
          linarith
        · refine ⟨i, mem_swapdel inv.cl_nd hd2c hi hi2, ?_⟩
          have hciU : s.cx.getD i 0 < s.ul.length := by
            have h := inv.cx_lt i hi
            rw [inv.plul]
            exact h
          rw [hpres c hcU, hcx'ne i hi1, hpres (s.cx.getD i 0) hciU]
          exact hle
  · intro c hc
    rw [umNewPl_len] at hc
    by_cases hcc1 : c = s.cx.getD d1 0
    · right
      refine ⟨s.pl.length, ?_, ?_, ?_⟩
      · rw [hcc1, umNewPl_getD_a s d1 d2 hc1P hc12]
      · rw [umNewPl_len]
        omega
      · rw [hcc1, hpres (s.cx.getD d1 0) hc1U, hnew']
        exact hA1
    · by_cases hcc2 : c = s.cx.getD d2 0
      · right
        refine ⟨s.pl.length, ?_, ?_, ?_⟩
        · rw [hcc2, umNewPl_getD_b s d1 d2 hc2P]
        · rw [umNewPl_len]
          omega
        · rw [hcc2, hpres (s.cx.getD d2 0) hc2U, hnew']
          exact hA2
      · by_cases hcP : c = s.pl.length
        · left
          rw [hcP, umNewPl_getD_new s d1 d2 hc1P hc2P]
        · have hc' : c < s.pl.length := by omega
          have hcU : c < s.ul.length := by rw [inv.plul]; exact hc'
          rw [umNewPl_getD_other s d1 d2 c hcc1 hcc2 hc']
          rcases inv.parent_ok c hc' with hl | ⟨p, hp, hpP, hple⟩
          · left
            exact hl
          · right
            have hpU : p < s.ul.length := by rw [inv.plul]; exact hpP
            refine ⟨p, hp, by rw [umNewPl_len]; omega, ?_⟩
            rw [hpres c hcU, hpres p hpU]
            exact hple
  · intro c hc hroot
    rw [umNewPl_len] at hc
    by_cases hcc1 : c = s.cx.getD d1 0
    · rw [hcc1, umNewPl_getD_a s d1 d2 hc1P hc12] at hroot
      exact absurd hroot (by omega)
    · by_cases hcc2 : c = s.cx.getD d2 0
      · rw [hcc2, umNewPl_getD_b s d1 d2 hc2P] at hroot
        exact absurd hroot (by omega)
      · by_cases hcP : c = s.pl.length
        · refine ⟨d1, mem_swapdel inv.cl_nd hd2c hd1m hne12, ?_⟩
          rw [hcx'd1]
          exact hcP.symm
        · have hc' : c < s.pl.length := by omega
          rw [umNewPl_getD_other s d1 d2 c hcc1 hcc2 hc'] at hroot
          obtain ⟨i, hi, hcx⟩ := inv.root_live c hc' hroot
          have hi1 : i ≠ d1 := by
            intro h
            apply hcc1
            rw [← hcx, h]
          have hi2 : i ≠ d2 := by
            intro h
            apply hcc2
            rw [← hcx, h]
          refine ⟨i, mem_swapdel inv.cl_nd hd2c hi hi2, ?_⟩
          rw [hcx'ne i hi1]
          exact hcx
  · intro c hc
    rw [umNewPl_len] at hc
    by_cases hcc1 : c = s.cx.getD d1 0
    · rw [hcc1, umNewPl_getD_a s d1 d2 hc1P hc12]
      exact hm1
    · by_cases hcc2 : c = s.cx.getD d2 0
      · rw [hcc2, umNewPl_getD_b s d1 d2 hc2P]
        exact hm2
      · by_cases hcP : c = s.pl.length
        · rw [hcP, umNewPl_getD_new s d1 d2 hc1P hc2P]
          show 1 ≤ (s.pl.getD (s.cx.getD d1 0) (-1, 0)).2 +
            (s.pl.getD (s.cx.getD d2 0) (-1, 0)).2
          omega
        · have hc' : c < s.pl.length := by omega
          rw [umNewPl_getD_other s d1 d2 c hcc1 hcc2 hc']
          exact inv.len_pos c hc'

theorem umInv_finish {n : ℕ} {s : UMState} (inv : UMInv n s)
    {d1 d2 cl2 : ℕ} (hd1m : d1 ∈ s.clusters)
    (hd2c : s.clusters[cl2]? = some d2) (h12 : d1 < d2)
    (hmin : ∀ q ∈ scanPairs s.clusters,
      pairVal s.dm (d1, d2, cl2) ≤ pairVal s.dm q)
    (hlen : s.clusters.length = 2) :
    (umNewPl s d1 d2).length = 2 * n - 1 ∧
    (umNewUl s d1 d2).length = 2 * n - 1 ∧
    ((umNewPl s d1 d2).getD (2 * n - 2) (-1, 0)).1 = -1 ∧
    (∀ c, c < 2 * n - 2 → ∃ p : ℕ,
      ((umNewPl s d1 d2).getD c (-1, 0)).1 = (p : Int) ∧ p < 2 * n - 1 ∧
      uage (umNewUl s d1 d2) c ≤ uage (umNewUl s d1 d2) p) ∧
    (∀ c, c < 2 * n - 1 →
      uage (umNewUl s d1 d2) c ≤ uage (umNewUl s d1 d2) (2 * n - 2)) := by
  obtain ⟨hd2m, hminall, hA1, hA2, hA0⟩ := merge_facts inv hd1m hd2c h12 hmin
  have hne12 : d1 ≠ d2 := by omega
  have hpl := inv.pl_len
  have hP : s.pl.length = 2 * n - 2 := by omega
  have hn1 : 1 ≤ n := by omega
  have hc1P : s.cx.getD d1 0 < s.pl.length := inv.cx_lt d1 hd1m
  have hc2P : s.cx.getD d2 0 < s.pl.length := inv.cx_lt d2 hd2m
  have hc12 : s.cx.getD d1 0 ≠ s.cx.getD d2 0 :=
    inv.cx_inj d1 hd1m d2 hd2m hne12
  have hc1U : s.cx.getD d1 0 < s.ul.length := by rw [inv.plul]; exact hc1P
  have hc2U : s.cx.getD d2 0 < s.ul.length := by rw [inv.plul]; exact hc2P
  have hpres : ∀ c, c < s.ul.length →
      uage (umNewUl s d1 d2) c = uage s.ul c := by
    intro c hc
    by_cases h1 : c = s.cx.getD d1 0
    · rw [h1]
      exact umNewUl_uage_a s d1 d2 hc1U hc12
    · by_cases h2 : c = s.cx.getD d2 0
      · rw [h2]
        exact umNewUl_uage_b s d1 d2 hc2U
      · exact umNewUl_uage_other s d1 d2 c h1 h2 hc
  have hnew' : uage (umNewUl s d1 d2) s.pl.length = getQ s.dm d2 d1 / 2 := by
    rw [← inv.plul]
    exact umNewUl_uage_new s d1 d2 hc1U hc2U
  refine ⟨?_, ?_, ?_, ?_, ?_⟩
  · rw [umNewPl_len]
    omega
  · rw [umNewUl_len, inv.plul]
    omega
  · rw [← hP, umNewPl_getD_new s d1 d2 hc1P hc2P]
  · intro c hc
    rw [← hP] at hc
    by_cases hcc1 : c = s.cx.getD d1 0
    · refine ⟨s.pl.length, ?_, by omega, ?_⟩
      · rw [hcc1, umNewPl_getD_a s d1 d2 hc1P hc12]
      · rw [hcc1, hpres (s.cx.getD d1 0) hc1U, hnew']
        exact hA1
    · by_cases hcc2 : c = s.cx.getD d2 0
      · refine ⟨s.pl.length, ?_, by omega, ?_⟩
        · rw [hcc2, umNewPl_getD_b s d1 d2 hc2P]
        · rw [hcc2, hpres (s.cx.getD d2 0) hc2U, hnew']
          exact hA2
      · have hcU : c < s.ul.length := by rw [inv.plul]; exact hc
        rw [umNewPl_getD_other s d1 d2 c hcc1 hcc2 hc]
        rcases inv.parent_ok c hc with hl | ⟨p, hp, hpP, hple⟩
        · obtain ⟨i, hi, hcx⟩ := inv.root_live c hc hl
          rcases mem_of_two hlen hd1m hd2m hne12 i hi with rfl | rfl
          · exact absurd hcx.symm hcc1
          · exact absurd hcx.symm hcc2
        · have hpU : p < s.ul.length := by rw [inv.plul]; exact hpP
          refine ⟨p, hp, by omega, ?_⟩
          rw [hpres c hcU, hpres p hpU]
          exact hple
  · intro c hc
    rw [← hP]
    by_cases hcP : c = s.pl.length
    · rw [hcP]
    · have hc' : c < s.pl.length := by omega
      have hcU : c < s.ul.length := by rw [inv.plul]; exact hc'
      rw [hnew', hpres c hcU]
      obtain ⟨i, hi, hle⟩ := inv.frontier c hc'
      rcases mem_of_two hlen hd1m hd2m hne12 i hi with rfl | rfl
      · linarith
      · linarith

theorem umLoop_spec : ∀ (fuel n : ℕ) (s : UMState), UMInv n s →
    s.clusters.length ≤ fuel →
    ∃ pl ul dmf, umLoop DAVG fuel s = some (pl, ul, dmf) ∧
      pl.length = 2 * n - 1 ∧ ul.length = 2 * n - 1 ∧
      ((pl.getD (2 * n - 2) (-1, 0)).1 = -1) ∧
      (∀ c, c < 2 * n - 2 → ∃ p : ℕ, (pl.getD c (-1, 0)).1 = (p : Int) ∧
        p < 2 * n - 1 ∧ uage ul c ≤ uage ul p) ∧
      (∀ c, c < 2 * n - 1 → uage ul c ≤ uage ul (2 * n - 2)) := by
  intro fuel
  induction fuel with
  | zero =>
    intro n s inv hf
    have h := inv.cl_len2
    exact absurd hf (by omega)
  | succ fuel ih =>
    intro n s inv hf
    obtain ⟨i0, j0, hi0, hj0, hij0⟩ := two_mem_lt inv.cl_nd inv.cl_len2
    obtain ⟨p, hpmem, hpeq, hpmin, L1, L2, hsplit, hpre⟩ :=
      closest_char s.dm s.clusters hi0 hj0 hij0
    obtain ⟨d1, d2, cl2⟩ := p
    obtain ⟨hd1m, h12, hd2c⟩ := mem_scanPairs.mp hpmem
    by_cases hlen : s.clusters.length = 2
    · have hiter := umIter_finish DAVG s d1 d2 cl2 hpeq hlen
      obtain ⟨h1, h2, h3, h4, h5⟩ := umInv_finish inv hd1m hd2c h12 hpmin hlen
      refine ⟨umNewPl s d1 d2, umNewUl s d1 d2, s.dm, ?_, h1, h2, h3, h4, h5⟩
      simp only [umLoop, hiter]
    · have hiter := umIter_next s d1 d2 cl2 hpeq hlen
      have inv2 := umInv_step inv hd1m hd2c h12 hpmin hlen
      have hlen2 : ((s.clusters.set cl2
          (s.clusters.getD (s.clusters.length - 1) 0)).take
          (s.clusters.length - 1)).length ≤ fuel := by
        rw [swapdel_len]
        omega
      obtain ⟨pl, ul, dmf, hrun, h1, h2, h3, h4, h5⟩ :=
        ih n _ inv2 hlen2
      refine ⟨pl, ul, dmf, ?_, h1, h2, h3, h4, h5⟩
      simp only [umLoop, hiter]
      exact hrun

/-- Claim C4 (amended): on every valid distance matrix with at least two
rows, average-linkage (`DAVG`) `Ultrametric` returns a parent list of
`2n-1` nodes in which the root (the last node) has parent `-1`, every other
node has a parent whose age is at least (non-strictly: equal ages occur)
its own age, and the root's age is the maximum age in the tree.  With
`DMIN` the property fails outright (see the counterexample). -/
theorem claim_C4_amended (d : Mat) (hval : Validate (liftQ d) = none)
    (h2 : 2 ≤ d.length) :
    ∃ pl ul, (Ultrametric d DAVG).1 = some (pl, ul) ∧
      pl.length = 2 * d.length - 1 ∧ ul.length = 2 * d.length - 1 ∧
      (pl.getD (2 * d.length - 2) (-1, 0)).1 = -1 ∧
      (∀ c, c < 2 * d.length - 2 → ∃ p : ℕ,
        (pl.getD c (-1, 0)).1 = (p : Int) ∧ p < 2 * d.length - 1 ∧
        uage ul c ≤ uage ul p) ∧
      (∀ c, c < 2 * d.length - 1 →
        uage ul c ≤ uage ul (2 * d.length - 2)) := by
  have hinit : (umInit d).clusters.length ≤ d.length := by
    simp [umInit]
  obtain ⟨pl, ul, dmf, hrun, h1, h2', h3, h4, h5⟩ :=
    umLoop_spec d.length d.length (umInit d) (umInv_init d hval h2) hinit
  refine ⟨pl, ul, ?_, h1, h2', h3, h4, h5⟩
  show ((UltrametricD (Clone d) DAVG).map fun r => (r.1, r.2.1)) = some (pl, ul)
  rw [Clone_eq]
  unfold UltrametricD
  rw [hrun]
  rfl

/-- Claim C4 (counterexample): two failures of the claim.  (a) With `DAVG`
on the valid all-zero 3-row matrix, node 0's age equals its parent's age
(both 0), so ages are not strictly increasing toward the root.  (b) With
`DMIN` on the valid matrix `[[0,10,8,19/2],[10,0,2,9],[8,2,0,9],
[19/2,9,9,0]]`, the stale upper-triangle reads of the single-linkage update
give node 5 age `9/2` while its parent — the root, node 6 — has age `4`:
the root's age is strictly smaller than its child's, so neither the
strict-monotonicity part nor the root-is-maximum part survives. -/
theorem claim_C4_counterexample :
    (Validate (liftQ [[0,0,0],[0,0,0],[0,0,0]]) = none ∧
     (Ultrametric [[0,0,0],[0,0,0],[0,0,0]] DAVG).1 =
       some ([((3:Int),1),((3:Int),1),((4:Int),1),((4:Int),2),((-1:Int),3)],
         [(some 0,0),(some 0,0),(some 0,0),(some 0,0),
           ((none : Option ℚ),(0:ℚ))]) ∧
     (([((3:Int),1),((3:Int),1),((4:Int),1),((4:Int),2),((-1:Int),3)] :
       List (Int × ℕ)).getD 0 (-1,0)).1 = (3 : Int) ∧
     ¬ uage [(some 0,0),(some 0,0),(some 0,0),(some 0,0),
         ((none : Option ℚ),(0:ℚ))] 0 <
       uage [(some 0,0),(some 0,0),(some 0,0),(some 0,0),
         ((none : Option ℚ),(0:ℚ))] 3) ∧
    (Validate (liftQ [[0,10,8,19/2],[10,0,2,9],[8,2,0,9],[19/2,9,9,0]]) =
       none ∧
     (Ultrametric [[0,10,8,19/2],[10,0,2,9],[8,2,0,9],[19/2,9,9,0]]
         DMIN).1 =
       some ([((6:Int),1),((4:Int),1),((4:Int),1),((5:Int),1),((5:Int),2),
           ((6:Int),3),((-1:Int),4)],
         [(some 4,0),(some 1,0),(some 1,0),(some (9/2),0),(some (7/2),1),
           (some (-1/2),9/2),((none : Option ℚ),(4:ℚ))]) ∧
     (([((6:Int),1),((4:Int),1),((4:Int),1),((5:Int),1),((5:Int),2),
         ((6:Int),3),((-1:Int),4)] : List (Int × ℕ)).getD 5 (-1,0)).1 =
       (6 : Int) ∧
     (([((6:Int),1),((4:Int),1),((4:Int),1),((5:Int),1),((5:Int),2),
         ((6:Int),3),((-1:Int),4)] : List (Int × ℕ)).getD 6 (-1,0)).1 =
       (-1 : Int) ∧
     uage [(some 4,0),(some 1,0),(some 1,0),(some (9/2),0),(some (7/2),1),
         (some (-1/2),9/2),((none : Option ℚ),(4:ℚ))] 6 <
       uage [(some 4,0),(some 1,0),(some 1,0),(some (9/2),0),(some (7/2),1),
         (some (-1/2),9/2),((none : Option ℚ),(4:ℚ))] 5) := by
  refine ⟨⟨?_, ?_, by decide, by decide⟩, ?_, ?_, by decide, by decide, ?_⟩
  · norm_num [Validate, Square, NonNegative, Symmetric, ZeroDiagonal,
      TriangleInequality, triTuples, triViolation, fget, F.add, F.beq, F.flt,
      liftQ, List.all, List.find?, List.enum, List.enumFrom, List.range,
      List.range.loop, List.flatMap, List.take, List.map, List.getD]
  · norm_num [Ultrametric, UltrametricD, Clone, umInit, umLoop, umIter,
      closest, ltInf, getQ, setQ, davgFold, DAVG, DMIN, List.foldl,
      List.enum, List.enumFrom, List.range, List.range.loop,
      Int.toNat_ofNat, Int.toNat]
  · norm_num [Validate, Square, NonNegative, Symmetric, ZeroDiagonal,
      TriangleInequality, triTuples, triViolation, fget, F.add, F.beq, F.flt,
      liftQ, List.all, List.find?, List.enum, List.enumFrom, List.range,
      List.range.loop, List.flatMap, List.take, List.map, List.getD]
  · norm_num [Ultrametric, UltrametricD, Clone, umInit, umLoop, umIter,
      closest, ltInf, getQ, setQ, dminFold, DAVG, DMIN, List.foldl,
      List.enum, List.enumFrom, List.range, List.range.loop,
      Int.toNat_ofNat, Int.toNat]
  · norm_num [uage]

theorem claim_C4_witness :
    ∃ pl ul, (Ultrametric [[0,2],[2,0]] DAVG).1 = some (pl, ul) ∧
      pl.length = 2 * 2 - 1 ∧ ul.length = 2 * 2 - 1 ∧
      (pl.getD (2 * 2 - 2) (-1, 0)).1 = -1 ∧
      (∀ c, c < 2 * 2 - 2 → ∃ p : ℕ,
        (pl.getD c (-1, 0)).1 = (p : Int) ∧ p < 2 * 2 - 1 ∧
        uage ul c ≤ uage ul p) ∧
      (∀ c, c < 2 * 2 - 1 → uage ul c ≤ uage ul (2 * 2 - 2)) :=
  claim_C4_amended [[0,2],[2,0]]
    (by norm_num [Validate, Square, NonNegative, Symmetric, ZeroDiagonal,
      TriangleInequality, triTuples, triViolation, fget, F.add, F.beq, F.flt,
      liftQ, List.all, List.find?, List.enum, List.enumFrom, List.range,
      List.range.loop, List.flatMap, List.take, List.map, List.getD])
    (by decide)

end Cluster

